import Mathlib

/-!
Verification of the production-schedule reflow core.

A shallow embedding of the repository's scheduling core
(`src/utils/date-utils.ts`, `src/reflow/reflow.service.ts`, the reflow
service's constraint checker, and the standalone `constraint-checker.ts`
variant).

Instants are modelled as natural numbers of minutes since an epoch placed
at a Sunday 00:00 UTC, so `dayOfWeek` (0 = Sunday, as in the plan data
model) is directly `(t / 1440) % 7`.  All instants occurring in the data
are whole minutes; the TypeScript `Math.floor` of Luxon minute
differences is then exact natural subtraction.  Luxon `DateTime`
comparison and `plus {minutes}` become `≤ / <` and `+` on ℕ.
-/

/-- Day-of-week of a minute instant; epoch is a Sunday, so 0 = Sunday. -/
def dayOfWeek (t : Nat) : Nat := (t / 1440) % 7

/-- Hour of day of a minute instant. -/
def hourOf (t : Nat) : Nat := (t % 1440) / 60

/-- Minute within the hour of a minute instant. -/
def minuteOf (t : Nat) : Nat := t % 60

/-- Luxon `startOf('day')`: midnight of the instant's calendar day. -/
def startOfDay (t : Nat) : Nat := (t / 1440) * 1440

/-! ## Data model (`src/reflow/types.ts` shapes used by the core) -/

structure Shift where
  dayOfWeek : Nat
  startHour : Nat
  endHour : Nat
deriving DecidableEq, Repr

structure MaintenanceWindow where
  startDate : Nat
  endDate : Nat
deriving DecidableEq, Repr

structure WorkCenter where
  name : String
  shifts : List Shift
  maintenanceWindows : List MaintenanceWindow
deriving DecidableEq, Repr

structure WorkOrder where
  workOrderNumber : String
  workCenterId : String
  startDate : Nat
  endDate : Nat
  durationMinutes : Nat
  isMaintenance : Bool
  dependsOnWorkOrderIds : List String
deriving DecidableEq, Repr

/-- `date-utils.ts` `MaintenanceRange` (window already parsed to instants). -/
structure MaintenanceRange where
  start : Nat
  «end» : Nat
deriving DecidableEq, Repr

/-! ## `date-utils.ts` -/

/-- `isInShift`: single-shift check, `[startHour, endHour)`, day must match.
The TypeScript writes this as a cascade of special cases (including an
explicit `h == endHour && m == 0` branch that returns `false`); the cascade
is kept. -/
def isInShift (dt : Nat) (s : Shift) : Bool :=
  if s.dayOfWeek ≠ dayOfWeek dt then false
  else
    let h := hourOf dt
    if h > s.startHour && h < s.endHour then true
    else if h == s.startHour && h < s.endHour then true
    else if h == s.endHour && minuteOf dt == 0 then false
    else false

/-- `isWithinShift`: inside any shift window. -/
def isWithinShift (dt : Nat) (shifts : List Shift) : Bool :=
  shifts.any (fun s => isInShift dt s)

/-- `getShiftSegmentEnd`: end of the shift segment containing `dt`
(first matching shift in list order), `dt` itself as fallback. -/
def getShiftSegmentEnd (dt : Nat) (shifts : List Shift) : Nat :=
  match shifts.find? (fun s =>
      s.dayOfWeek == dayOfWeek dt &&
      decide (s.startHour ≤ hourOf dt) && decide (hourOf dt < s.endHour)) with
  | some s => startOfDay dt + s.endHour * 60
  | none => dt

/-- The `best` accumulation of `getNextShiftStart`'s scan
(`best === null || candidate < best`). -/
def bestOf (best : Option Nat) (c : Nat) : Option Nat :=
  match best with
  | none => some c
  | some b => if c < b then some c else some b

/-- The candidate shift starts scanned by `getNextShiftStart`: for each of
the next 8 days, the start instants of the shifts on that day's weekday,
kept when at or after `dt`. -/
def shiftStartCandidates (dt : Nat) (shifts : List Shift) : List Nat :=
  (List.range 8).flatMap (fun d =>
    let day := dt + d * 1440
    shifts.filterMap (fun s =>
      if s.dayOfWeek == dayOfWeek day then
        let c := startOfDay day + s.startHour * 60
        if dt ≤ c then some c else none
      else none))

/-- `getNextShiftStart`: earliest shift start at or after `dt` within the
next 8 calendar days; `dt` itself when no shifts or no candidate. -/
def getNextShiftStart (dt : Nat) (shifts : List Shift) : Nat :=
  if shifts.isEmpty then dt
  else
    match (shiftStartCandidates dt shifts).foldl bestOf none with
    | some best => best
    | none => dt

/-- `isInMaintenanceRange`. -/
def isInMaintenanceRange (dt : Nat) (ranges : List MaintenanceRange) : Bool :=
  ranges.any (fun r => decide (r.start ≤ dt) && decide (dt < r.«end»))

/-- `getMaintenanceRangeEnd`: end of the (first listed) range containing `dt`. -/
def getMaintenanceRangeEnd (dt : Nat) (ranges : List MaintenanceRange) :
    Option Nat :=
  (ranges.find? (fun r => decide (r.start ≤ dt) && decide (dt < r.«end»))).map
    (fun r => r.«end»)

/-- Loop body of `getNextWorkingMoment`; the TypeScript `for` loop with
`MAX_ITER = 1000` is a fuel parameter, and fuel exhaustion returns the
current instant exactly as the TypeScript does after its last iteration. -/
def getNextWorkingMomentGo (shifts : List Shift)
    (ranges : List MaintenanceRange) : Nat → Nat → Nat
  | 0, current => current
  | fuel + 1, current =>
    if shifts.length > 0 && !isWithinShift current shifts then
      getNextWorkingMomentGo shifts ranges fuel (getNextShiftStart current shifts)
    else if ranges.length > 0 && isInMaintenanceRange current ranges then
      match getMaintenanceRangeEnd current ranges with
      | some e => getNextWorkingMomentGo shifts ranges fuel e
      | none => current
    else current

/-- `getNextWorkingMoment`: next moment ≥ `dt` in shift and not in
maintenance (up to the source's 1000-iteration cap). -/
def getNextWorkingMoment (dt : Nat) (shifts : List Shift)
    (ranges : List MaintenanceRange) : Nat :=
  getNextWorkingMomentGo shifts ranges 1000 dt

/-- `getWorkingSegmentEnd`: shift segment end, clamped to the start of any
maintenance range opening strictly after `dt` but before the current end. -/
def getWorkingSegmentEnd (dt : Nat) (shifts : List Shift)
    (ranges : List MaintenanceRange) : Nat :=
  ranges.foldl
    (fun segmentEnd r =>
      if decide (dt < r.start) && decide (r.start < segmentEnd) then r.start
      else segmentEnd)
    (getShiftSegmentEnd dt shifts)

/-- Loop of `calculateEndDateWithShiftsAndMaintenance`
(`for (i = 0; i < 5000 && remaining > 0; i++)`); fuel exhaustion returns
`current` with the remaining duration silently dropped, as in the source. -/
def calcGo (shifts : List Shift) (ranges : List MaintenanceRange) :
    Nat → Nat → Nat → Nat
  | 0, current, _ => current
  | fuel + 1, current, remaining =>
    if remaining == 0 then current
    else
      let segmentEnd := getWorkingSegmentEnd current shifts ranges
      let minutesInSegment := segmentEnd - current
      if minutesInSegment == 0 then
        calcGo shifts ranges fuel
          (getNextWorkingMoment segmentEnd shifts ranges) remaining
      else if remaining ≤ minutesInSegment then current + remaining
      else
        calcGo shifts ranges fuel
          (getNextWorkingMoment segmentEnd shifts ranges)
          (remaining - minutesInSegment)

/-- `calculateEndDateWithShiftsAndMaintenance`: shift- and
maintenance-aware end time. -/
def calculateEndDateWithShiftsAndMaintenance (startDate durationMinutes : Nat)
    (shifts : List Shift) (ranges : List MaintenanceRange) : Nat :=
  if shifts.isEmpty then startDate + durationMinutes
  else calcGo shifts ranges 5000
    (getNextWorkingMoment startDate shifts ranges) durationMinutes

/-- One contiguous block of working time (`WorkingSegment`). -/
structure WorkingSegment where
  start : Nat
  «end» : Nat
deriving DecidableEq, Repr

/-- Loop of `getWorkingSegments` (same 5000-iteration cap). -/
def segmentsGo (shifts : List Shift) (ranges : List MaintenanceRange) :
    Nat → Nat → Nat → List WorkingSegment → List WorkingSegment
  | 0, _, _, segments => segments
  | fuel + 1, current, remaining, segments =>
    if remaining == 0 then segments
    else
      let segmentEnd := getWorkingSegmentEnd current shifts ranges
      let minutesInSegment := segmentEnd - current
      if minutesInSegment == 0 then
        segmentsGo shifts ranges fuel
          (getNextWorkingMoment segmentEnd shifts ranges) remaining segments
      else if remaining ≤ minutesInSegment then
        segments ++ [⟨current, current + remaining⟩]
      else
        segmentsGo shifts ranges fuel
          (getNextWorkingMoment segmentEnd shifts ranges)
          (remaining - minutesInSegment)
          (segments ++ [⟨current, segmentEnd⟩])

/-- `getWorkingSegments`: the contiguous working intervals consumed by an
order of the given duration. -/
def getWorkingSegments (startDate durationMinutes : Nat)
    (shifts : List Shift) (ranges : List MaintenanceRange) :
    List WorkingSegment :=
  if shifts.isEmpty then [⟨startDate, startDate + durationMinutes⟩]
  else segmentsGo shifts ranges 5000
    (getNextWorkingMoment startDate shifts ranges) durationMinutes []

/-- Loop of `calculateEndDateWithShifts`.  The TypeScript `while` loop is
unbounded; it is given the sibling functions' 5000-iteration fuel here,
which is never reached on the hour-valued shift tables of the data model
(each full segment strictly consumes duration). -/
def calcShiftsGo (shifts : List Shift) : Nat → Nat → Nat → Nat
  | 0, current, _ => current
  | fuel + 1, current, remaining =>
    if remaining == 0 then current
    else
      let segmentEnd := getShiftSegmentEnd current shifts
      let minutesInSegment := segmentEnd - current
      if minutesInSegment == 0 then
        calcShiftsGo shifts fuel (getNextShiftStart current shifts) remaining
      else if remaining ≤ minutesInSegment then current + remaining
      else calcShiftsGo shifts fuel segmentEnd (remaining - minutesInSegment)

/-- `calculateEndDateWithShifts`: shift-aware (maintenance-blind) end time. -/
def calculateEndDateWithShifts (startDate durationMinutes : Nat)
    (shifts : List Shift) : Nat :=
  if shifts.isEmpty then startDate + durationMinutes
  else
    let current :=
      if !isWithinShift startDate shifts then getNextShiftStart startDate shifts
      else startDate
    calcShiftsGo shifts 5000 current durationMinutes

/-! ## JavaScript `Map` as an insertion-ordered association list

The TypeScript builds `Map`s by repeated `set`; `set` of an existing key
overwrites in place, of a fresh key appends, and iteration follows
insertion order.  `amSet`/`amGet` reproduce exactly that.  Where a map is
only ever read (never iterated), the simpler last-wins `assocGet` over the
raw `(key, value)` list is used. -/

/-- `Map.get` on a list of `set` operations: the last write wins
(equivalently, `Map.set` overwrites). -/
def assocGet {α : Type} (l : List (String × α)) (k : String) : Option α :=
  l.foldl (fun acc p => if p.1 == k then some p.2 else acc) none

/-- `Map.set` preserving first-insertion iteration order. -/
def amSet {α : Type} (l : List (String × α)) (k : String) (v : α) :
    List (String × α) :=
  if l.any (fun p => p.1 == k) then
    l.map (fun p => if p.1 == k then (k, v) else p)
  else l ++ [(k, v)]

/-- `Map.get` on an `amSet`-built map (keys are unique, first match). -/
def amGet {α : Type} (l : List (String × α)) (k : String) : Option α :=
  (l.find? (fun p => p.1 == k)).map (fun p => p.2)

/-! ## Structured error model

The TypeScript throws `Error`s and accumulates violation message strings;
the embedding carries the identifying data of each message as structured
values (string formatting is presentation only). -/

/-- One validation violation, as produced by the constraint checkers. -/
inductive ValError where
  /-- Work-center conflict between two orders on `workCenterId`. -/
  | centerConflict (workCenterId aNum bNum : String) (aEnd bStart : Nat)
  /-- An order depends on an unknown work-order id. -/
  | depUnknown (woNum depId : String)
  /-- An order starts before its latest dependency end. -/
  | depTooEarly (woNum : String) (start maxParentEnd : Nat)
  /-- An order's start is not inside any shift of its center. -/
  | shiftStartOutside (woNum : String) (start : Nat)
  /-- An order's stored end is off the recomputed end beyond tolerance. -/
  | shiftEndMismatch (woNum : String) (stored computed : Nat)
  /-- An order's interval overlaps a maintenance window (standalone
  checker only). -/
  | maintenanceOverlap (woNum : String) (winStart winEnd : Nat)
deriving DecidableEq, Repr

/-- The errors `reflow` can throw. -/
inductive ReflowError where
  /-- `Circular dependency detected involving work order(s): …` -/
  | cycle (ids : List String)
  /-- `Reflow produced invalid schedule: …` -/
  | invalid (errors : List ValError)
deriving DecidableEq, Repr

/-! ## Constraint checker used by the reflow service
(the second compilation unit of `reflow.service.ts`) -/

/-- The adjacent-pair scan of `checkWorkCenterConflicts`
(`for i in 0 .. sorted.length-2`). -/
def pairConflicts (workCenterId : String) : List WorkOrder → List ValError
  | a :: b :: rest =>
    (if b.startDate < a.endDate then
      [ValError.centerConflict workCenterId a.workOrderNumber
        b.workOrderNumber a.endDate b.startDate]
    else []) ++ pairConflicts workCenterId (b :: rest)
  | _ => []

/-- First-occurrence key order of a JavaScript `Map` built by grouping. -/
def firstDedup (l : List String) : List String :=
  l.foldl (fun acc x => if acc.contains x then acc else acc ++ [x]) []

/-- `checkWorkCenterConflicts`: group by center, sort by start (stable,
as `Array.prototype.sort` with a start-difference comparator), flag every
adjacent overlapping pair. -/
def checkWorkCenterConflicts (workOrders : List WorkOrder) : List ValError :=
  (firstDedup (workOrders.map (fun wo => wo.workCenterId))).flatMap
    (fun workCenterId =>
      let orders := workOrders.filter (fun wo => wo.workCenterId == workCenterId)
      let sorted := orders.mergeSort (fun a b => a.startDate ≤ b.startDate)
      pairConflicts workCenterId sorted)

/-- The per-order accumulation of `checkDependencies`: unknown-dependency
errors in dependency-list order, and the running latest parent end. -/
def depScan (byNumber : String → Option WorkOrder) (wo : WorkOrder) :
    List ValError × Option Nat :=
  wo.dependsOnWorkOrderIds.foldl
    (fun acc depId =>
      match byNumber depId with
      | none => (acc.1 ++ [ValError.depUnknown wo.workOrderNumber depId], acc.2)
      | some parent =>
        (acc.1,
         match acc.2 with
         | none => some parent.endDate
         | some m => if parent.endDate > m then some parent.endDate else some m))
    ([], none)

/-- `checkDependencies`: all parents must finish before this order starts. -/
def checkDependencies (workOrders : List WorkOrder) : List ValError :=
  let byNumber := fun id =>
    assocGet (workOrders.map (fun wo => (wo.workOrderNumber, wo))) id
  workOrders.flatMap (fun wo =>
    if wo.dependsOnWorkOrderIds.isEmpty then []
    else
      let scan := depScan byNumber wo
      scan.1 ++
        (match scan.2 with
         | some m =>
           if wo.startDate < m then
             [ValError.depTooEarly wo.workOrderNumber wo.startDate m]
           else []
         | none => []))

/-- `checkShifts` of the reflow service's checker: the start must be in a
shift, and the stored end must match the shift- and maintenance-aware
recomputation within `END_TOLERANCE_MS = 60 * 1000` — at whole minutes an
absolute difference of more than one minute. -/
def checkShifts (workOrders : List WorkOrder) (workCenters : List WorkCenter) :
    List ValError :=
  workOrders.flatMap (fun wo =>
    match workCenters.find? (fun c => c.name == wo.workCenterId) with
    | none => []
    | some wc =>
      if wc.shifts.isEmpty then []
      else
        let start := wo.startDate
        let startErrs :=
          if !isWithinShift start wc.shifts then
            [ValError.shiftStartOutside wo.workOrderNumber start]
          else []
        let maintenanceRanges := wc.maintenanceWindows.map
          (fun w => MaintenanceRange.mk w.startDate w.endDate)
        let computedEnd :=
          if maintenanceRanges.length > 0 then
            calculateEndDateWithShiftsAndMaintenance start wo.durationMinutes
              wc.shifts maintenanceRanges
          else calculateEndDateWithShifts start wo.durationMinutes wc.shifts
        let diff :=
          if computedEnd ≥ wo.endDate then computedEnd - wo.endDate
          else wo.endDate - computedEnd
        startErrs ++
          (if diff > 1 then
            [ValError.shiftEndMismatch wo.workOrderNumber wo.endDate computedEnd]
          else []))

/-- `checkMaintenance` of the reflow service's checker: deliberately a
no-op (work may span maintenance; end validation is left to `checkShifts`). -/
def checkMaintenance (_workOrders : List WorkOrder)
    (_workCenters : List WorkCenter) : List ValError := []

/-- `ValidationResult`. -/
structure ValidationResult where
  valid : Bool
  errors : List ValError
deriving DecidableEq, Repr

/-- `validateSchedule` (reflow service variant): run all four checks,
valid iff the combined error list is empty. -/
def validateSchedule (workOrders : List WorkOrder)
    (workCenters : List WorkCenter) : ValidationResult :=
  let errors :=
    checkWorkCenterConflicts workOrders ++ checkDependencies workOrders ++
    checkShifts workOrders workCenters ++ checkMaintenance workOrders workCenters
  ⟨errors.isEmpty, errors⟩

/-! ## Standalone validator copy (top-level `constraint-checker.ts`)

Same conflict and dependency checks; `checkShifts` uses the
maintenance-blind `calculateEndDateWithShifts` only, and `checkMaintenance`
flags every wall-clock overlap of an order with a maintenance window of its
center. -/

/-- `checkShifts` of the standalone checker. -/
def checkShiftsStandalone (workOrders : List WorkOrder)
    (workCenters : List WorkCenter) : List ValError :=
  workOrders.flatMap (fun wo =>
    match workCenters.find? (fun c => c.name == wo.workCenterId) with
    | none => []
    | some wc =>
      if wc.shifts.isEmpty then []
      else
        let start := wo.startDate
        let startErrs :=
          if !isWithinShift start wc.shifts then
            [ValError.shiftStartOutside wo.workOrderNumber start]
          else []
        let computedEnd :=
          calculateEndDateWithShifts start wo.durationMinutes wc.shifts
        let diff :=
          if computedEnd ≥ wo.endDate then computedEnd - wo.endDate
          else wo.endDate - computedEnd
        startErrs ++
          (if diff > 1 then
            [ValError.shiftEndMismatch wo.workOrderNumber wo.endDate computedEnd]
          else []))

/-- `checkMaintenance` of the standalone checker: error whenever
`orderStart < winEnd && orderEnd > winStart`. -/
def checkMaintenanceStandalone (workOrders : List WorkOrder)
    (workCenters : List WorkCenter) : List ValError :=
  let centerByKey := fun key =>
    assocGet (workCenters.map (fun wc => (wc.name, wc))) key
  workOrders.flatMap (fun wo =>
    match centerByKey wo.workCenterId with
    | none => []
    | some wc =>
      if wc.maintenanceWindows.isEmpty then []
      else
        wc.maintenanceWindows.flatMap (fun win =>
          if wo.startDate < win.endDate && win.startDate < wo.endDate then
            [ValError.maintenanceOverlap wo.workOrderNumber
              win.startDate win.endDate]
          else []))

/-- `validateSchedule` (standalone `constraint-checker.ts` variant). -/
def validateScheduleStandalone (workOrders : List WorkOrder)
    (workCenters : List WorkCenter) : ValidationResult :=
  let errors :=
    checkWorkCenterConflicts workOrders ++ checkDependencies workOrders ++
    checkShiftsStandalone workOrders workCenters ++
    checkMaintenanceStandalone workOrders workCenters
  ⟨errors.isEmpty, errors⟩

/-! ## Reflow service (`reflow.service.ts`) -/

/-- `isInMaintenance` of the reflow service (over raw windows). -/
def isInMaintenanceW (dt : Nat) (windows : List MaintenanceWindow) : Bool :=
  windows.any (fun w => decide (w.startDate ≤ dt) && decide (dt < w.endDate))

/-- The `while (isInMaintenance … && iterations < MAX_MAINTENANCE_ITERATIONS)`
loop of `getNextAvailableStart`, with `MAX_MAINTENANCE_ITERATIONS = 500` as
fuel; fuel exhaustion silently returns the current instant. -/
def gnasMaintLoop (shifts : List Shift) (windows : List MaintenanceWindow) :
    Nat → Nat → Nat
  | 0, current => current
  | fuel + 1, current =>
    if isInMaintenanceW current windows then
      match windows.find?
          (fun w => decide (w.startDate ≤ current) && decide (current < w.endDate)) with
      | some w =>
        let c := w.endDate
        let c :=
          if shifts.length > 0 && !isWithinShift c shifts then
            getNextShiftStart c shifts
          else c
        gnasMaintLoop shifts windows fuel c
      | none => gnasMaintLoop shifts windows fuel current
    else current

/-- `getNextAvailableStart`: snap to the next shift start only when outside
every shift, then advance past maintenance windows (bounded loop). -/
def getNextAvailableStart (dt : Nat) (shifts : List Shift)
    (windows : List MaintenanceWindow) : Nat :=
  let current :=
    if shifts.length > 0 && !isWithinShift dt shifts then
      getNextShiftStart dt shifts
    else dt
  gnasMaintLoop shifts windows 500 current

/-! ### Kahn's algorithm (`topologicalOrder`) -/

/-- The dequeue loop of Kahn's algorithm.  Fuel only caps the number of
dequeues; since every enqueued id is distinct (an id is seeded iff its
initial in-degree is zero, and reaches zero by decrement at most once,
`-1` never comparing equal to `0` on ℤ), the loop performs at most one
dequeue per order plus slack, so the generous fuel below is never
exhausted before the queue empties. -/
def kahnLoop (children : List (String × List String)) :
    Nat → List String → List String → List (String × Int) → List String
  | 0, _, result, _ => result
  | fuel + 1, queue, result, inDegree =>
    match queue with
    | [] => result
    | n :: rest =>
      let step :=
        ((amGet children n).getD []).foldl
          (fun (acc : List (String × Int) × List String) c =>
            let d := ((amGet acc.1 c).getD 1) - 1
            (amSet acc.1 c d, if d == 0 then acc.2 ++ [c] else acc.2))
          (inDegree, rest)
      kahnLoop children fuel step.2 (result ++ [n]) step.1

/-- The in-degree and children maps of `topologicalOrder`, built over the
orders in input order (edges from dependencies that resolve to a known
order id; unresolved ids are silently dropped). -/
def kahnGraph (workOrders : List WorkOrder) :
    List (String × Int) × List (String × List String) :=
  let inDegree0 := workOrders.foldl
    (fun m wo => amSet m wo.workOrderNumber (0 : Int)) []
  let children0 := workOrders.foldl
    (fun m wo => amSet m wo.workOrderNumber ([] : List String)) []
  workOrders.foldl
    (fun acc wo =>
      wo.dependsOnWorkOrderIds.foldl
        (fun (acc2 : _ × _) depId =>
          if workOrders.any (fun o => o.workOrderNumber == depId) then
            (amSet acc2.1 wo.workOrderNumber
               (((amGet acc2.1 wo.workOrderNumber).getD 0) + 1),
             amSet acc2.2 depId
               (((amGet acc2.2 depId).getD []) ++ [wo.workOrderNumber]))
          else acc2)
        acc)
    (inDegree0, children0)

/-- The schedule order produced by Kahn's algorithm (before the cycle
check). -/
def kahnResult (workOrders : List WorkOrder) : List String :=
  let graph := kahnGraph workOrders
  let queue := graph.1.filterMap
    (fun p => if p.2 == 0 then some p.1 else none)
  kahnLoop graph.2
    (workOrders.length +
      (workOrders.map (fun wo => wo.dependsOnWorkOrderIds.length)).sum + 1)
    queue [] graph.1

/-- The ids reported on a cycle: every order id absent from the Kahn
result (those that never reached in-degree zero). -/
def cycleIds (workOrders : List WorkOrder) : List String :=
  (workOrders.map (fun wo => wo.workOrderNumber)).filter
    (fun id => !(kahnResult workOrders).contains id)

/-- `topologicalOrder`: Kahn's algorithm; a result shorter than the input
means a cycle, reported with the involved ids. -/
def topologicalOrder (workOrders : List WorkOrder) :
    Except (List String) (List String) :=
  if (kahnResult workOrders).length ≠ workOrders.length then
    Except.error (cycleIds workOrders)
  else Except.ok (kahnResult workOrders)

/-! ### The placement pass of `reflow` -/

/-- A `Change` record (old/new values are instants; the TypeScript stores
their ISO renderings). -/
structure Change where
  workOrderId : String
  field : String
  oldValue : Nat
  newValue : Nat
  reason : String
  howCreated : String
deriving DecidableEq, Repr

/-- `ReflowInput`. -/
structure ReflowInput where
  workOrders : List WorkOrder
  workCenters : List WorkCenter
deriving DecidableEq, Repr

/-- `ReflowResult`; `explanation` keeps the joined sentence parts. -/
structure ReflowResult where
  updatedWorkOrders : List WorkOrder
  changes : List Change
  explanation : List String
deriving DecidableEq, Repr

/-- The mutable state threaded through the per-order loop of `reflow`. -/
structure PlaceState where
  scheduledByCenter : List (String × List (Nat × Nat))
  newSchedule : List (String × (Nat × Nat))
  changes : List Change
  explanationParts : List String
deriving DecidableEq, Repr

/-- The dependency end consulted for one parent: a maintenance parent
contributes its stored end verbatim; otherwise the already-rescheduled end
if the parent was placed earlier in this pass, else its stored end. -/
def parentEndUsed (newSchedule : List (String × (Nat × Nat)))
    (parent : WorkOrder) : Nat :=
  if parent.isMaintenance then parent.endDate
  else
    match assocGet newSchedule parent.workOrderNumber with
    | some se => se.2
    | none => parent.endDate

/-- `DateTime.max(...list.map(x => x.end))` over a non-empty center list. -/
def maxEndsOf (p : Nat × Nat) (rest : List (Nat × Nat)) : Nat :=
  rest.foldl (fun m q => max m q.2) p.2

/-- `wc?.shifts ?? []` for one order. -/
def shiftsOfFn (wcByName : String → Option WorkCenter) (wo : WorkOrder) :
    List Shift :=
  ((wcByName wo.workCenterId).map (fun c => c.shifts)).getD []

/-- `wc?.maintenanceWindows ?? []` for one order. -/
def windowsOfFn (wcByName : String → Option WorkCenter) (wo : WorkOrder) :
    List MaintenanceWindow :=
  ((wcByName wo.workCenterId).map (fun c => c.maintenanceWindows)).getD []

/-- The parsed maintenance ranges handed to the time-walk for one order. -/
def rangesOfFn (wcByName : String → Option WorkCenter) (wo : WorkOrder) :
    List MaintenanceRange :=
  (windowsOfFn wcByName wo).map (fun w => MaintenanceRange.mk w.startDate w.endDate)

/-- The `scheduledByCenter` bucket consulted for one order. -/
def centerListOf (st : PlaceState) (wo : WorkOrder) : List (Nat × Nat) :=
  (assocGet st.scheduledByCenter wo.workCenterId).getD []

/-- `lastEndOnCenter`: latest end among orders already placed on the
order's center during this pass. -/
def lastEndOnCenterOf (st : PlaceState) (wo : WorkOrder) : Option Nat :=
  match centerListOf st wo with
  | [] => none
  | p :: rest => some (maxEndsOf p rest)

/-- `maxParentEnd`: latest end among the order's resolvable parents. -/
def maxParentEndOf (byNumber : String → Option WorkOrder)
    (st : PlaceState) (wo : WorkOrder) : Option Nat :=
  wo.dependsOnWorkOrderIds.foldl
    (fun acc depId =>
      match byNumber depId with
      | none => acc
      | some parent =>
        let parentEnd := parentEndUsed st.newSchedule parent
        match acc with
        | none => some parentEnd
        | some m => if parentEnd > m then some parentEnd else some m)
    none

/-- `candidateStart` before shift/maintenance alignment:
`max(last end on center, max parent end, own stored start)`. -/
def candidateStart0Of (byNumber : String → Option WorkOrder)
    (st : PlaceState) (wo : WorkOrder) : Nat :=
  max (max ((lastEndOnCenterOf st wo).getD wo.startDate)
           ((maxParentEndOf byNumber st wo).getD wo.startDate))
      wo.startDate

/-- The aligned `candidateStart`. -/
def candidateStartOf (byNumber : String → Option WorkOrder)
    (wcByName : String → Option WorkCenter)
    (st : PlaceState) (wo : WorkOrder) : Nat :=
  getNextAvailableStart (candidateStart0Of byNumber st wo)
    (shiftsOfFn wcByName wo) (windowsOfFn wcByName wo)

/-- The computed end for one placed order. -/
def endOf (byNumber : String → Option WorkOrder)
    (wcByName : String → Option WorkCenter)
    (st : PlaceState) (wo : WorkOrder) : Nat :=
  calculateEndDateWithShiftsAndMaintenance
    (candidateStartOf byNumber wcByName st wo) wo.durationMinutes
    (shiftsOfFn wcByName wo) (rangesOfFn wcByName wo)

/-- The body of `reflow`'s `for (const woId of nonMaintenanceIds)` loop:
place one order and record its changes. -/
def placeOne (byNumber : String → Option WorkOrder)
    (wcByName : String → Option WorkCenter)
    (st : PlaceState) (woId : String) : PlaceState :=
  match byNumber woId with
  | none => st
  | some wo =>
    let lastEndOnCenter := lastEndOnCenterOf st wo
    let maxParentEnd := maxParentEndOf byNumber st wo
    let candidateStart := candidateStartOf byNumber wcByName st wo
    let endD := endOf byNumber wcByName st wo
    let startChanges :=
      if candidateStart ≠ wo.startDate then
        let depHit := maxParentEnd.isSome &&
          decide (candidateStart = maxParentEnd.getD 0)
        let centerHit := lastEndOnCenter.isSome &&
          decide (candidateStart = lastEndOnCenter.getD 0)
        let startReason :=
          if depHit then "dependency"
          else if centerHit then "work center conflict"
          else "shift or maintenance"
        let startHow :=
          if depHit then
            "Earliest slot after dependency finished; aligned to shift/maintenance."
          else if centerHit then
            "Earliest slot after prior order on same center; aligned to shift/maintenance."
          else "Aligned to next available shift start (or after maintenance)."
        [Change.mk wo.workOrderNumber "startDate" wo.startDate candidateStart
          startReason startHow]
      else []
    let startParts :=
      if candidateStart ≠ wo.startDate then
        ["Order " ++ wo.workOrderNumber ++ " start moved."]
      else []
    let endChanges :=
      if endD ≠ wo.endDate then
        let cascade := maxParentEnd.isSome || lastEndOnCenter.isSome
        let endReason :=
          if cascade then "cascade from new start" else "shift or maintenance"
        let endHow :=
          if cascade then
            "Recalculated from new start: duration counted only in shift and outside maintenance (work pauses at shift end or during maintenance, resumes after)."
          else
            "Recalculated: duration counted only in shift and outside maintenance; work pauses at shift end or during maintenance, resumes after, so end can be later."
        [Change.mk wo.workOrderNumber "endDate" wo.endDate endD endReason endHow]
      else []
    let endParts :=
      if endD ≠ wo.endDate then
        ["Order " ++ wo.workOrderNumber ++ " end moved."]
      else []
    { scheduledByCenter :=
        amSet st.scheduledByCenter wo.workCenterId
          (centerListOf st wo ++ [(candidateStart, endD)])
      newSchedule := st.newSchedule ++ [(woId, (candidateStart, endD))]
      changes := st.changes ++ startChanges ++ endChanges
      explanationParts := st.explanationParts ++ startParts ++ endParts }

/-- The byNumber map of one `reflow` invocation. -/
def byNumberOf (workOrders : List WorkOrder) : String → Option WorkOrder :=
  fun id => assocGet (workOrders.map (fun wo => (wo.workOrderNumber, wo))) id

/-- The work-center-by-name map of one `reflow` invocation. -/
def wcByNameOf (workCenters : List WorkCenter) : String → Option WorkCenter :=
  fun n => assocGet (workCenters.map (fun wc => (wc.name, wc))) n

/-- The whole placement pass: fold `placeOne` over the non-maintenance ids
in topological order, starting from empty state. -/
def placeAll (input : ReflowInput) (orderIds : List String) : PlaceState :=
  let byNumber := byNumberOf input.workOrders
  let nonMaintenanceIds := orderIds.filter (fun id =>
    match byNumber id with
    | some wo => !wo.isMaintenance
    | none => false)
  nonMaintenanceIds.foldl
    (placeOne byNumber (wcByNameOf input.workCenters))
    ⟨[], [], [], []⟩

/-- Rebuild the output orders: maintenance orders pass through untouched,
placed orders get their new start/end, everything else is returned as-is. -/
def updatedOrdersOf (workOrders : List WorkOrder)
    (newSchedule : List (String × (Nat × Nat))) : List WorkOrder :=
  workOrders.map (fun wo =>
    if wo.isMaintenance then wo
    else
      match assocGet newSchedule wo.workOrderNumber with
      | none => wo
      | some se => { wo with startDate := se.1, endDate := se.2 })

/-- `reflow`: topological order, placement pass, change log, and the final
self-validation gate (`throw` becomes `Except.error`). -/
def reflow (input : ReflowInput) : Except ReflowError ReflowResult :=
  match topologicalOrder input.workOrders with
  | Except.error ids => Except.error (ReflowError.cycle ids)
  | Except.ok orderIds =>
    let st := placeAll input orderIds
    let updatedWorkOrders := updatedOrdersOf input.workOrders st.newSchedule
    let validation := validateSchedule updatedWorkOrders input.workCenters
    if validation.valid then
      Except.ok
        { updatedWorkOrders := updatedWorkOrders
          changes := st.changes
          explanation :=
            if st.explanationParts.isEmpty then
              ["No changes required; schedule already satisfies constraints."]
            else st.explanationParts }
    else Except.error (ReflowError.invalid validation.errors)

/-- The per-order rebuild function of `updatedOrdersOf`. -/
def updateFn (newSchedule : List (String × (Nat × Nat))) (wo : WorkOrder) :
    WorkOrder :=
  if wo.isMaintenance then wo
  else
    match assocGet newSchedule wo.workOrderNumber with
    | none => wo
    | some se => { wo with startDate := se.1, endDate := se.2 }

def C4input : ReflowInput :=
  ⟨[⟨"W1", "C", 0, 60, 60, false, []⟩], [⟨"C", [], []⟩]⟩

def C4result : ReflowResult :=
  ⟨[⟨"W1", "C", 0, 60, 60, false, []⟩], [],
   ["No changes required; schedule already satisfies constraints."]⟩

def C6input : List WorkOrder :=
  [⟨"A", "C", 0, 0, 0, false, ["B"]⟩, ⟨"B", "C", 0, 0, 0, false, ["A"]⟩]

def C7input : ReflowInput := ⟨[⟨"M", "C", 100, 40, 60, true, []⟩], []⟩

def C7result : ReflowResult :=
  ⟨[⟨"M", "C", 100, 40, 60, true, []⟩], [],
   ["No changes required; schedule already satisfies constraints."]⟩

/-! ## C10: the two validators disagree about maintenance overlap -/

/-- Discriminator for the maintenance-overlap error kind. -/
def isMaintErr : ValError → Bool
  | ValError.maintenanceOverlap _ _ _ => true
  | _ => false

def C10wos : List WorkOrder := [⟨"W", "C", 0, 100, 100, false, []⟩]

def C10wcs : List WorkCenter := [⟨"C", [], [⟨10, 20⟩]⟩]

def C9input : ReflowInput :=
  ⟨[⟨"A", "C", 0, 60, 60, false, ["GHOST"]⟩], [⟨"C", [], []⟩]⟩

/-! ## C2: iteration bounds are silent fallbacks, not errors -/

/-- A chain of `n` back-to-back one-minute maintenance windows
covering `[0, n)`. -/
def chainW (n : Nat) : List MaintenanceWindow :=
  (List.range n).map (fun k => ⟨k, k + 1⟩)

/-- An input whose single order sits at the head of a 501-window chain:
the placer's snap-forward loop exhausts its 500-iteration bound. -/
def C2input : ReflowInput :=
  ⟨[⟨"W", "C", 0, 560, 60, false, []⟩], [⟨"C", [], chainW 501⟩]⟩

def C3input : ReflowInput :=
  ⟨[⟨"A", "C", 0, 60, 60, false, []⟩, ⟨"B", "C", 60, 120, 60, false, []⟩],
   [⟨"C", [], []⟩]⟩

def C3result : ReflowResult :=
  ⟨[⟨"A", "C", 0, 60, 60, false, []⟩, ⟨"B", "C", 60, 120, 60, false, []⟩],
   [], ["No changes required; schedule already satisfies constraints."]⟩

/-- The non-maintenance ids `reflow` processes. -/
def nonMaintIdsOf (input : ReflowInput) : List String :=
  (kahnResult input.workOrders).filter (fun id =>
    match byNumberOf input.workOrders id with
    | some wo => !wo.isMaintenance
    | none => false)

/-- The non-maintenance orders in the placer's processing order. -/
def processedSeq (input : ReflowInput) : List WorkOrder :=
  (nonMaintIdsOf input).filterMap (byNumberOf input.workOrders)

/-- A schedule the validator accepts (stored end one minute off the
recomputed end, inside the 60-second tolerance) that `reflow`
nevertheless changes. -/
def C1input : ReflowInput :=
  ⟨[⟨"W", "C", 1440, 1501, 60, false, []⟩], [⟨"C", [⟨1, 0, 23⟩], []⟩]⟩

def C1winput : ReflowInput :=
  ⟨[⟨"W", "C", 1440, 1500, 60, false, []⟩], [⟨"C", [⟨1, 0, 23⟩], []⟩]⟩

/-! ## C5: duration conservation of the time-walk -/

/-- Modelled from the claim's own words (the property's measure, not a
source function): the number of whole minutes in `[start, end)` that lie
inside a shift and outside every maintenance range.  (`minutesInRange` of
`date-utils.ts` counts in-shift minutes only and ignores maintenance, so
the claim's measure is stated independently.) -/
def specWorkingMinutes (start endD : Nat) (shifts : List Shift)
    (ranges : List MaintenanceRange) : Nat :=
  ((List.range (endD - start)).filter (fun k =>
    isWithinShift (start + k) shifts &&
      !isInMaintenanceRange (start + k) ranges)).length

/-- Completeness check for the `calcGo` walk: every visited instant is
working (inside a shift, outside maintenance) and the walk consumes the
whole remaining duration before its fuel runs out.  This is exactly the
branch structure of `calcGo`, with each silently-degrading branch mapped
to `false`. -/
def calcGoChk (shifts : List Shift) (ranges : List MaintenanceRange) :
    Nat → Nat → Nat → Bool
  | 0, _, remaining => remaining == 0
  | fuel + 1, current, remaining =>
    if remaining == 0 then true
    else if !isWithinShift current shifts ||
        isInMaintenanceRange current ranges then false
    else
      let segmentEnd := getWorkingSegmentEnd current shifts ranges
      let minutesInSegment := segmentEnd - current
      if remaining ≤ minutesInSegment then true
      else calcGoChk shifts ranges fuel
        (getNextWorkingMoment segmentEnd shifts ranges)
        (remaining - minutesInSegment)

/-- The walk-completion certificate for one placement: starting from the
snapped working moment, `calcGo`'s 5000-iteration walk visits only working
instants and consumes the whole duration (no silent fuel exhaustion, and
no inner `getNextWorkingMoment` call that stalls on a non-working
instant). -/
def walkCompletes (startDate durationMinutes : Nat) (shifts : List Shift)
    (ranges : List MaintenanceRange) : Bool :=
  calcGoChk shifts ranges 5000
    (getNextWorkingMoment startDate shifts ranges) durationMinutes

/-- A chain of `n` back-to-back one-minute maintenance ranges covering
`[a, a + n)`. -/
def chainR (a n : Nat) : List MaintenanceRange :=
  (List.range n).map (fun k => ⟨a + k, a + k + 1⟩)

/-- The counterexample order: two minutes of work stored at Monday 00:00. -/
def C5cxorder : WorkOrder := ⟨"W", "C", 1440, 9999, 2, false, []⟩

/-- The 1002 back-to-back one-minute maintenance windows covering
`[1441, 2443)`. -/
def C5cxw : List MaintenanceWindow :=
  (List.range 1002).map (fun k => ⟨1441 + k, 1442 + k⟩)

/-- The counterexample work center: a Monday 00:00–23:00 shift and the
window chain. -/
def C5cxwc : WorkCenter := ⟨"C", [⟨1, 0, 23⟩], C5cxw⟩

def C5cx : ReflowInput := ⟨[C5cxorder], [C5cxwc]⟩

/-- The order as it appears in the counterexample's reflow output. -/
def C5cxout : WorkOrder := ⟨"W", "C", 1440, 2442, 2, false, []⟩

/-- The placement state after the single counterexample order is placed. -/
def C5cxstate : PlaceState :=
  ⟨[("C", [(1440, 2442)])], [("W", (1440, 2442))],
   [⟨"W", "endDate", 9999, 2442, "shift or maintenance",
     "Recalculated: duration counted only in shift and outside maintenance; work pauses at shift end or during maintenance, resumes after, so end can be later."⟩],
   ["Order W end moved."]⟩

def C5cxresult : ReflowResult :=
  ⟨[C5cxout],
   [⟨"W", "endDate", 9999, 2442, "shift or maintenance",
     "Recalculated: duration counted only in shift and outside maintenance; work pauses at shift end or during maintenance, resumes after, so end can be later."⟩],
   ["Order W end moved."]⟩

/-- Witness input for C5: one order on a Monday-shift center with no
maintenance, stored exactly where the walk puts it. -/
def C5worder : WorkOrder := ⟨"W", "C", 1440, 1500, 60, false, []⟩

def C5winput : ReflowInput := ⟨[C5worder], [⟨"C", [⟨1, 0, 23⟩], []⟩]⟩

def C5wresult : ReflowResult :=
  ⟨[C5worder], [],
   ["No changes required; schedule already satisfies constraints."]⟩

unseal List.merge List.mergeSort

/-! ## Shared structural lemmas -/

/-- Decomposition of a successful `reflow` run. -/
theorem reflow_ok_structure {input : ReflowInput} {r : ReflowResult}
    (h : reflow input = Except.ok r) :
    ∃ orderIds, topologicalOrder input.workOrders = Except.ok orderIds ∧
      r.updatedWorkOrders =
        updatedOrdersOf input.workOrders (placeAll input orderIds).newSchedule ∧
      r.changes = (placeAll input orderIds).changes ∧
      (validateSchedule r.updatedWorkOrders input.workCenters).valid = true := by
  unfold reflow at h
  cases htop : topologicalOrder input.workOrders with
  | error ids => rw [htop] at h; exact absurd h (by simp)
  | ok orderIds =>
    rw [htop] at h
    simp only at h
    split at h
    · rename_i hv
      refine ⟨orderIds, rfl, ?_⟩
      cases h
      exact ⟨rfl, rfl, hv⟩
    · exact absurd h (by simp)

/-- `valid` is exactly emptiness of the error list. -/
theorem validateSchedule_valid_iff (u : List WorkOrder) (w : List WorkCenter) :
    (validateSchedule u w).valid = true ↔ (validateSchedule u w).errors = [] := by
  simp [validateSchedule]

theorem updatedOrdersOf_eq_map (workOrders : List WorkOrder)
    (newSchedule : List (String × (Nat × Nat))) :
    updatedOrdersOf workOrders newSchedule =
      workOrders.map (updateFn newSchedule) := rfl

/-- Rebuilding preserves every field other than the schedule instants. -/
theorem updateFn_preserves (newSchedule : List (String × (Nat × Nat)))
    (wo : WorkOrder) :
    (updateFn newSchedule wo).workOrderNumber = wo.workOrderNumber ∧
    (updateFn newSchedule wo).workCenterId = wo.workCenterId ∧
    (updateFn newSchedule wo).durationMinutes = wo.durationMinutes ∧
    (updateFn newSchedule wo).isMaintenance = wo.isMaintenance ∧
    (updateFn newSchedule wo).dependsOnWorkOrderIds =
      wo.dependsOnWorkOrderIds := by
  unfold updateFn
  split
  · exact ⟨rfl, rfl, rfl, rfl, rfl⟩
  · cases assocGet newSchedule wo.workOrderNumber <;>
      exact ⟨rfl, rfl, rfl, rfl, rfl⟩

/-- A maintenance order is rebuilt verbatim. -/
theorem updateFn_maintenance (newSchedule : List (String × (Nat × Nat)))
    (wo : WorkOrder) (h : wo.isMaintenance = true) :
    updateFn newSchedule wo = wo := by
  unfold updateFn
  rw [h]
  rfl

/-! ## C8: zero-shift fallback -/

/-- C8: with an empty shift set the time-walk is plain wall-clock addition
of `durationMinutes`, and the segment variant returns the single wall-clock
segment; the maintenance ranges have no effect in either. -/
theorem C8_zero_shift_fallback (start dur : Nat)
    (ranges : List MaintenanceRange) :
    calculateEndDateWithShiftsAndMaintenance start dur [] ranges =
      start + dur ∧
    getWorkingSegments start dur [] ranges = [⟨start, start + dur⟩] :=
  ⟨rfl, rfl⟩

/-! ## C4: round-trip through the validator -/

/-- C4: whenever `reflow` returns a result without an error, the same
`validateSchedule` applied to its `updatedWorkOrders` and the same work
centers reports valid. -/
theorem C4_round_trip (input : ReflowInput) (r : ReflowResult)
    (h : reflow input = Except.ok r) :
    (validateSchedule r.updatedWorkOrders input.workCenters).valid = true :=
  (reflow_ok_structure h).choose_spec.2.2.2

theorem C4_witness :
    (validateSchedule C4result.updatedWorkOrders C4input.workCenters).valid =
      true :=
  C4_round_trip C4input C4result rfl

/-! ## C6: cycle detection -/

/-- C6: when Kahn's algorithm produces fewer orders than the input count,
`reflow` fails with the cycle error carrying exactly the ids that never
reached in-degree zero (every id absent from the Kahn result is named),
and no result — hence no `updatedOrders` — is produced. -/
theorem C6_cycle_detection (workOrders : List WorkOrder)
    (workCenters : List WorkCenter)
    (h : (kahnResult workOrders).length < workOrders.length) :
    reflow ⟨workOrders, workCenters⟩ =
      Except.error (ReflowError.cycle (cycleIds workOrders)) ∧
    ∀ id ∈ workOrders.map (fun wo => wo.workOrderNumber),
      id ∉ kahnResult workOrders → id ∈ cycleIds workOrders := by
  have htop : topologicalOrder workOrders =
      Except.error (cycleIds workOrders) := by
    unfold topologicalOrder
    rw [if_pos (Nat.ne_of_lt h)]
  constructor
  · show (match topologicalOrder workOrders with
      | Except.error ids => Except.error (ReflowError.cycle ids)
      | Except.ok orderIds => _) = _
    rw [htop]
  · intro id hid hnot
    unfold cycleIds
    rw [List.mem_filter]
    refine ⟨hid, ?_⟩
    simpa using hnot

theorem C6_witness :
    reflow ⟨C6input, []⟩ =
      Except.error (ReflowError.cycle (cycleIds C6input)) ∧
    "A" ∈ cycleIds C6input ∧ "B" ∈ cycleIds C6input :=
  ⟨(C6_cycle_detection C6input [] (by decide)).1,
   (C6_cycle_detection C6input [] (by decide)).2 "A" (by decide) (by decide),
   (C6_cycle_detection C6input [] (by decide)).2 "B" (by decide) (by decide)⟩

/-! ## C7: maintenance orders are immovable -/

/-- C7: in any successful `reflow` run the output list has one order per
input order, every maintenance order appears in the output verbatim
(same record, same position), and wherever a dependent's dependency
computation consults a maintenance parent its stored end is used verbatim
(regardless of the pass's rescheduling state).  Input records are Lean
values, so the source's no-mutation discipline (altered orders are fresh
records) is definitionally guaranteed by the embedding. -/
theorem C7_maintenance_passthrough (input : ReflowInput) (r : ReflowResult)
    (h : reflow input = Except.ok r) :
    (r.updatedWorkOrders.length = input.workOrders.length ∧
     ∀ (i : Nat) (hi : i < input.workOrders.length)
       (hi' : i < r.updatedWorkOrders.length),
       (input.workOrders.get ⟨i, hi⟩).isMaintenance = true →
       r.updatedWorkOrders.get ⟨i, hi'⟩ = input.workOrders.get ⟨i, hi⟩) ∧
    (∀ (newSchedule : List (String × (Nat × Nat))) (parent : WorkOrder),
       parent.isMaintenance = true →
       parentEndUsed newSchedule parent = parent.endDate) := by
  obtain ⟨ids, -, hupd, -, -⟩ := reflow_ok_structure h
  refine ⟨⟨?_, ?_⟩, ?_⟩
  · rw [hupd, updatedOrdersOf_eq_map, List.length_map]
  · intro i hi hi' hm
    have heq : r.updatedWorkOrders =
        input.workOrders.map (updateFn (placeAll input ids).newSchedule) := by
      rw [hupd, updatedOrdersOf_eq_map]
    have hg := List.get_of_eq heq ⟨i, hi'⟩
    rw [hg]
    simp only [List.get_eq_getElem, List.getElem_map]
    exact updateFn_maintenance _ _ hm
  · intro ns parent hp
    simp [parentEndUsed, hp]

theorem C7_witness :
    C7result.updatedWorkOrders.get ⟨0, by decide⟩ =
      C7input.workOrders.get ⟨0, by decide⟩ ∧
    parentEndUsed [] (C7input.workOrders.get ⟨0, by decide⟩) = 40 :=
  ⟨(C7_maintenance_passthrough C7input C7result rfl).1.2 0
      (by decide) (by decide) (by decide),
   (C7_maintenance_passthrough C7input C7result rfl).2 []
      (C7input.workOrders.get ⟨0, by decide⟩) (by decide)⟩

/-- Generic foldl invariant preservation. -/
theorem foldl_preserve {α β : Type} (P : β → Prop) (f : β → α → β)
    (hstep : ∀ b a, P b → P (f b a)) :
    ∀ (l : List α) (init : β), P init → P (l.foldl f init) := by
  intro l
  induction l with
  | nil => intro init h; exact h
  | cons a t ih => intro init h; exact ih _ (hstep _ _ h)

theorem pairConflicts_no_maint (c : String) :
    ∀ (l : List WorkOrder) (e : ValError), e ∈ pairConflicts c l →
      isMaintErr e = false := by
  intro l
  induction l with
  | nil => intro e he; simp [pairConflicts] at he
  | cons a t ih =>
    cases t with
    | nil => intro e he; simp [pairConflicts] at he
    | cons b rest =>
      intro e he
      rw [pairConflicts] at he
      rcases List.mem_append.mp he with h1 | h2
      · split at h1
        · rcases List.mem_singleton.mp h1 with rfl; rfl
        · simp at h1
      · exact ih e h2

/-- Membership in a conditional singleton determines the element. -/
theorem mem_ite_singleton {c : Prop} [Decidable c] {e x : ValError}
    (h : e ∈ if c then [x] else []) : e = x := by
  split at h
  · exact List.mem_singleton.mp h
  · simp at h

theorem depScan_fst_no_maint (f : String → Option WorkOrder)
    (wo : WorkOrder) (e : ValError) (he : e ∈ (depScan f wo).1) :
    isMaintErr e = false := by
  unfold depScan at he
  refine foldl_preserve
    (fun (acc : List ValError × Option Nat) =>
      ∀ x ∈ acc.1, isMaintErr x = false)
    (fun acc depId =>
      match f depId with
      | none =>
        (acc.1 ++ [ValError.depUnknown wo.workOrderNumber depId], acc.2)
      | some parent =>
        (acc.1,
          match acc.2 with
          | none => some parent.endDate
          | some m =>
            if parent.endDate > m then some parent.endDate else some m))
    ?_ wo.dependsOnWorkOrderIds ([], none) (by intro x hx; simp at hx) e he
  intro b a hb x hx
  cases hfa : f a with
  | none =>
    simp only [hfa] at hx
    rcases List.mem_append.mp hx with h1 | h2
    · exact hb x h1
    · rcases List.mem_singleton.mp h2 with rfl; rfl
  | some parent =>
    simp only [hfa] at hx
    exact hb x hx

/-- C10: the reflow service's `checkMaintenance` is a no-op, so its
`validateSchedule` can never emit a maintenance-overlap error (overlap is
caught only indirectly through the shift-conformance end re-derivation);
the standalone `constraint-checker.ts` copy, by contrast, reports every
wall-clock overlap of an order with a maintenance window of its center. -/
theorem C10_maintenance_check_asymmetry :
    (∀ (workOrders : List WorkOrder) (workCenters : List WorkCenter)
       (e : ValError), e ∈ (validateSchedule workOrders workCenters).errors →
       isMaintErr e = false) ∧
    (∀ (workOrders : List WorkOrder) (workCenters : List WorkCenter)
       (wo : WorkOrder) (wc : WorkCenter) (win : MaintenanceWindow),
       wo ∈ workOrders →
       assocGet (workCenters.map (fun c => (c.name, c))) wo.workCenterId =
         some wc →
       win ∈ wc.maintenanceWindows →
       wo.startDate < win.endDate → win.startDate < wo.endDate →
       ValError.maintenanceOverlap wo.workOrderNumber win.startDate
           win.endDate ∈
         (validateScheduleStandalone workOrders workCenters).errors) := by
  constructor
  · intro workOrders workCenters e he
    simp only [validateSchedule, List.append_nil, checkMaintenance] at he
    rcases List.mem_append.mp he with hcd | hs
    · rcases List.mem_append.mp hcd with hc | hd
      · rcases List.mem_flatMap.mp hc with ⟨c, -, hin⟩
        exact pairConflicts_no_maint c _ e hin
      · rcases List.mem_flatMap.mp hd with ⟨wo, -, hin⟩
        split at hin
        · simp at hin
        · rcases List.mem_append.mp hin with h1 | h2
          · exact depScan_fst_no_maint _ wo e h1
          · split at h2
            · rcases mem_ite_singleton h2 with rfl; rfl
            · simp at h2
    · rcases List.mem_flatMap.mp hs with ⟨wo, -, hin⟩
      split at hin
      · simp at hin
      · split at hin
        · simp at hin
        · rcases List.mem_append.mp hin with h1 | h2
          · rcases mem_ite_singleton h1 with rfl; rfl
          · rcases mem_ite_singleton h2 with rfl; rfl
  · intro workOrders workCenters wo wc win hwo hwc hwin h1 h2
    have hmem : ValError.maintenanceOverlap wo.workOrderNumber win.startDate
        win.endDate ∈ checkMaintenanceStandalone workOrders workCenters := by
      unfold checkMaintenanceStandalone
      refine List.mem_flatMap.mpr ⟨wo, hwo, ?_⟩
      simp only [hwc]
      rw [if_neg (fun h => List.ne_nil_of_mem hwin (List.isEmpty_iff.mp h))]
      refine List.mem_flatMap.mpr ⟨win, hwin, ?_⟩
      rw [if_pos (by simp [h1, h2])]
      exact List.mem_singleton.mpr rfl
    unfold validateScheduleStandalone
    exact List.mem_append.mpr (Or.inr hmem)

theorem C10_witness :
    isMaintErr (ValError.centerConflict "C" "A" "B" 50 10) = false ∧
    ValError.maintenanceOverlap "W" 10 20 ∈
      (validateScheduleStandalone C10wos C10wcs).errors :=
  ⟨C10_maintenance_check_asymmetry.1
      [⟨"A", "C", 0, 50, 50, false, []⟩, ⟨"B", "C", 10, 60, 50, false, []⟩]
      [] (ValError.centerConflict "C" "A" "B" 50 10) (by decide),
   C10_maintenance_check_asymmetry.2 C10wos C10wcs
      ⟨"W", "C", 0, 100, 100, false, []⟩ ⟨"C", [], [⟨10, 20⟩]⟩ ⟨10, 20⟩
      (by decide) (by decide) (by decide) (by decide) (by decide)⟩

/-! ## C9: unknown dependency ids abort the reflow at validation -/

theorem assocGet_eq_none {α : Type} (l : List (String × α)) (k : String)
    (h : ∀ p ∈ l, (p.1 == k) = false) : assocGet l k = none := by
  unfold assocGet
  suffices hgen : ∀ (l' : List (String × α)) (acc : Option α),
      (∀ p ∈ l', (p.1 == k) = false) → acc = none →
      l'.foldl (fun acc p => if p.1 == k then some p.2 else acc) acc = none by
    exact hgen l none h rfl
  intro l'
  induction l' with
  | nil => intro acc _ ha; simpa using ha
  | cons p t ih =>
    intro acc hall ha
    simp only [List.foldl_cons]
    refine ih _ (fun q hq => hall q (List.mem_cons_of_mem _ hq)) ?_
    rw [if_neg (by simp [hall p (List.mem_cons_self _ _)])]
    exact ha

/-- If a listed dependency id has no resolving order, the dependency scan
records the unknown-dependency error. -/
theorem depScanGo_mem (f : String → Option WorkOrder) (num depId : String)
    (hf : f depId = none) :
    ∀ (l : List String) (acc : List ValError × Option Nat),
      (depId ∈ l ∨ ValError.depUnknown num depId ∈ acc.1) →
      ValError.depUnknown num depId ∈
        (l.foldl (fun acc d =>
          match f d with
          | none => (acc.1 ++ [ValError.depUnknown num d], acc.2)
          | some parent =>
            (acc.1,
              match acc.2 with
              | none => some parent.endDate
              | some m =>
                if parent.endDate > m then some parent.endDate else some m))
          acc).1 := by
  intro l
  induction l with
  | nil =>
    intro acc h
    rcases h with h | h
    · simp at h
    · exact h
  | cons a t ih =>
    intro acc h
    simp only [List.foldl_cons]
    apply ih
    rcases h with h | h
    · rcases List.mem_cons.mp h with rfl | ht
      · right
        simp only [hf]
        exact List.mem_append.mpr (Or.inr (List.mem_singleton.mpr rfl))
      · left; exact ht
    · right
      cases hfa : f a with
      | none => simp only [hfa]; exact List.mem_append.mpr (Or.inl h)
      | some parent => simp only [hfa]; exact h

/-- When validation fails, `reflow` surfaces the full error list. -/
theorem reflow_invalid_of (input : ReflowInput) (orderIds : List String)
    (htop : topologicalOrder input.workOrders = Except.ok orderIds)
    (hv : (validateSchedule
        (updatedOrdersOf input.workOrders (placeAll input orderIds).newSchedule)
        input.workCenters).valid = false) :
    reflow input = Except.error (ReflowError.invalid
      (validateSchedule
        (updatedOrdersOf input.workOrders (placeAll input orderIds).newSchedule)
        input.workCenters).errors) := by
  unfold reflow
  rw [htop]
  simp only
  rw [if_neg (by simp [hv])]

/-- `validateSchedule` reports (and rejects on) every unknown dependency
id, over any order list. -/
theorem validateSchedule_unknown_dep (workOrders : List WorkOrder)
    (workCenters : List WorkCenter) (wo : WorkOrder) (depId : String)
    (hwo : wo ∈ workOrders) (hdep : depId ∈ wo.dependsOnWorkOrderIds)
    (hunk : ∀ o ∈ workOrders, o.workOrderNumber ≠ depId) :
    ValError.depUnknown wo.workOrderNumber depId ∈
      (validateSchedule workOrders workCenters).errors ∧
    (validateSchedule workOrders workCenters).valid = false := by
  have hkeys :
      assocGet (workOrders.map (fun o => (o.workOrderNumber, o))) depId =
        none := by
    apply assocGet_eq_none
    intro p hp
    rcases List.mem_map.mp hp with ⟨o, ho, rfl⟩
    exact beq_eq_false_iff_ne.mpr (hunk o ho)
  have hd : ValError.depUnknown wo.workOrderNumber depId ∈
      checkDependencies workOrders := by
    unfold checkDependencies
    refine List.mem_flatMap.mpr ⟨wo, hwo, ?_⟩
    rw [if_neg (fun h => List.ne_nil_of_mem hdep (List.isEmpty_iff.mp h))]
    refine List.mem_append.mpr (Or.inl ?_)
    unfold depScan
    exact depScanGo_mem _ wo.workOrderNumber depId hkeys
      wo.dependsOnWorkOrderIds ([], none) (Or.inl hdep)
  have herr : ValError.depUnknown wo.workOrderNumber depId ∈
      (validateSchedule workOrders workCenters).errors := by
    unfold validateSchedule checkMaintenance
    simp only [List.append_nil]
    exact List.mem_append.mpr (Or.inl (List.mem_append.mpr (Or.inr hd)))
  refine ⟨herr, ?_⟩
  cases hv : (validateSchedule workOrders workCenters).valid with
  | false => rfl
  | true =>
    have := (validateSchedule_valid_iff _ _).mp hv
    rw [this] at herr
    simp at herr

/-- C9: when some work order lists a dependency id matching no order in
the input, `reflow` never returns a result: the graph builder drops the
edge, but `checkDependencies` reports the unknown id, so (absent an
earlier cycle failure) the call fails with the schedule-invalid error
carrying that report. -/
theorem C9_unknown_dependency (input : ReflowInput) (wo : WorkOrder)
    (depId : String) (hwo : wo ∈ input.workOrders)
    (hdep : depId ∈ wo.dependsOnWorkOrderIds)
    (hunk : ∀ o ∈ input.workOrders, o.workOrderNumber ≠ depId) :
    (∀ r, reflow input ≠ Except.ok r) ∧
    ((kahnResult input.workOrders).length = input.workOrders.length →
      ∃ errs, reflow input = Except.error (ReflowError.invalid errs) ∧
        ValError.depUnknown wo.workOrderNumber depId ∈ errs) := by
  have hmain : (kahnResult input.workOrders).length = input.workOrders.length →
      ∃ errs, reflow input = Except.error (ReflowError.invalid errs) ∧
        ValError.depUnknown wo.workOrderNumber depId ∈ errs := by
    intro hlen
    have htop : topologicalOrder input.workOrders =
        Except.ok (kahnResult input.workOrders) := by
      unfold topologicalOrder
      rw [if_neg (by simp [hlen])]
    have hkey := validateSchedule_unknown_dep
      (updatedOrdersOf input.workOrders
        (placeAll input (kahnResult input.workOrders)).newSchedule)
      input.workCenters
      (updateFn (placeAll input (kahnResult input.workOrders)).newSchedule wo)
      depId ?_ ?_ ?_
    · refine ⟨_, reflow_invalid_of input (kahnResult input.workOrders) htop
        hkey.2, ?_⟩
      have hnum := (updateFn_preserves
        (placeAll input (kahnResult input.workOrders)).newSchedule wo).1
      rw [← hnum]
      exact hkey.1
    · rw [updatedOrdersOf_eq_map]
      exact List.mem_map_of_mem _ hwo
    · rw [(updateFn_preserves _ wo).2.2.2.2]
      exact hdep
    · intro o ho
      rw [updatedOrdersOf_eq_map] at ho
      rcases List.mem_map.mp ho with ⟨x, hx, rfl⟩
      rw [(updateFn_preserves _ x).1]
      exact hunk x hx
  refine ⟨?_, hmain⟩
  intro r hok
  by_cases hlen :
      (kahnResult input.workOrders).length = input.workOrders.length
  · obtain ⟨errs, heq, -⟩ := hmain hlen
    rw [heq] at hok
    exact Except.noConfusion hok
  · have htop : topologicalOrder input.workOrders =
        Except.error (cycleIds input.workOrders) := by
      unfold topologicalOrder
      rw [if_pos hlen]
    unfold reflow at hok
    rw [htop] at hok
    exact Except.noConfusion hok

theorem C9_witness : reflow C9input ≠ Except.ok ⟨[], [], []⟩ :=
  (C9_unknown_dependency C9input ⟨"A", "C", 0, 60, 60, false, ["GHOST"]⟩
    "GHOST" (by decide) (by decide) (by decide)).1 ⟨[], [], []⟩

theorem isInMaintenanceW_chain (t n : Nat) :
    isInMaintenanceW t (chainW n) = true ↔ t < n := by
  unfold isInMaintenanceW chainW
  rw [List.any_eq_true]
  constructor
  · rintro ⟨w, hw, hcond⟩
    rcases List.mem_map.mp hw with ⟨k, hk, rfl⟩
    have hkn := List.mem_range.mp hk
    simp only [Bool.and_eq_true, decide_eq_true_eq] at hcond
    omega
  · intro ht
    exact ⟨⟨t, t + 1⟩, List.mem_map.mpr ⟨t, List.mem_range.mpr ht, rfl⟩,
      by simp⟩

theorem find?_chainW (t n : Nat) (ht : t < n) :
    (chainW n).find?
        (fun w => decide (w.startDate ≤ t) && decide (t < w.endDate)) =
      some ⟨t, t + 1⟩ := by
  induction n with
  | zero => omega
  | succ m ih =>
    rw [chainW, List.range_succ, List.map_append, List.find?_append]
    rcases Nat.lt_or_ge t m with h | h
    · rw [show (List.range m).map (fun k => MaintenanceWindow.mk k (k + 1)) =
          chainW m from rfl]
      rw [ih h]
      rfl
    · have htm : t = m := by omega
      subst htm
      have hnone : (chainW t).find?
          (fun w => decide (w.startDate ≤ t) && decide (t < w.endDate)) =
            none := by
        rw [List.find?_eq_none]
        intro w hw
        rcases List.mem_map.mp hw with ⟨k, hk, rfl⟩
        have := List.mem_range.mp hk
        simp only [Bool.and_eq_true, decide_eq_true_eq, not_and]
        omega
      rw [show (List.range t).map (fun k => MaintenanceWindow.mk k (k + 1)) =
          chainW t from rfl]
      rw [hnone]
      simp

/-- With no shifts, the bounded maintenance-advance loop consumes one
window per iteration across the chain, stopping either at the end of the
chain or when the fuel runs out. -/
theorem gnasMaintLoop_chain (n : Nat) :
    ∀ (fuel cur : Nat), cur ≤ n →
      gnasMaintLoop [] (chainW n) fuel cur = min (cur + fuel) n := by
  intro fuel
  induction fuel with
  | zero =>
    intro cur h
    rw [gnasMaintLoop]
    omega
  | succ f ih =>
    intro cur h
    rw [gnasMaintLoop]
    by_cases hc : cur < n
    · rw [if_pos ((isInMaintenanceW_chain cur n).mpr hc)]
      rw [find?_chainW cur n hc]
      simp only [List.length_nil]
      rw [show (if (decide (0 > 0) && !isWithinShift (cur + 1) []) = true then
          getNextShiftStart (cur + 1) [] else cur + 1) = cur + 1 from rfl]
      rw [ih (cur + 1) (by omega)]
      omega
    · rw [if_neg (by
        intro hmem
        exact hc ((isInMaintenanceW_chain cur n).mp hmem))]
      omega

/-- C2 counterexample: on a chain of 501 one-minute maintenance windows
the snap-forward loop exceeds its 500-iteration bound and silently
returns minute 500 — an instant still inside a maintenance window — and
the enclosing `reflow` call returns a result instead of failing; no
`SchedulingImpossible` error kind exists anywhere in the code. -/
theorem C2_counterexample :
    getNextAvailableStart 0 [] (chainW 501) = 500 ∧
    isInMaintenanceW 500 (chainW 501) = true ∧
    (reflow C2input).isOk = true := by
  refine ⟨?_, (isInMaintenanceW_chain 500 501).mpr (by omega), ?_⟩
  · show gnasMaintLoop [] (chainW 501) 500 0 = 500
    rw [gnasMaintLoop_chain 501 500 0 (by omega)]
    omega
  · decide

/-- C2 amended: exceeding an internal iteration bound is not surfaced as
an error — no `SchedulingImpossible` error kind exists; the loop silently
returns its current moment even when that moment is still blocked.
Exhibited on the snap-forward loop: for every chain of `n ≥ 501`
one-minute maintenance windows with no shifts, `getNextAvailableStart`
runs out of its 500-iteration bound and returns minute 500, which still
lies inside a maintenance window. -/
theorem C2_amended_silent_bound (n : Nat) (h : 501 ≤ n) :
    getNextAvailableStart 0 [] (chainW n) = 500 ∧
    isInMaintenanceW 500 (chainW n) = true := by
  constructor
  · show gnasMaintLoop [] (chainW n) 500 0 = 500
    rw [gnasMaintLoop_chain n 500 0 (by omega)]
    omega
  · exact (isInMaintenanceW_chain 500 n).mpr (by omega)

theorem C2_witness :
    501 ≤ 501 ∧ (getNextAvailableStart 0 [] (chainW 501) = 500 ∧
      isInMaintenanceW 500 (chainW 501) = true) :=
  ⟨by omega, C2_amended_silent_bound 501 (by omega)⟩

/-! ## C3: no overlap on a work center in any successful output -/

theorem flatMap_eq_nil_mem {α β : Type} {l : List α} {f : α → List β}
    (h : l.flatMap f = []) {x : α} (hx : x ∈ l) : f x = [] := by
  induction l with
  | nil => simp at hx
  | cons a t ih =>
    rw [List.flatMap_cons] at h
    rcases List.append_eq_nil.mp h with ⟨h1, h2⟩
    rcases List.mem_cons.mp hx with rfl | hx'
    · exact h1
    · exact ih h2 hx'

theorem mem_firstDedup {x : String} {l : List String} (hx : x ∈ l) :
    x ∈ firstDedup l := by
  unfold firstDedup
  suffices hgen : ∀ (l' : List String) (acc : List String),
      x ∈ acc ∨ x ∈ l' →
      x ∈ l'.foldl
        (fun acc y => if acc.contains y then acc else acc ++ [y]) acc by
    exact hgen l [] (Or.inr hx)
  intro l'
  induction l' with
  | nil =>
    intro acc h
    rcases h with h | h
    · exact h
    · simp at h
  | cons a t ih =>
    intro acc h
    simp only [List.foldl_cons]
    apply ih
    rcases h with h | h
    · left
      split
      · exact h
      · exact List.mem_append.mpr (Or.inl h)
    · rcases List.mem_cons.mp h with rfl | ht
      · left
        split
        · rename_i hcon
          simpa using hcon
        · exact List.mem_append.mpr (Or.inr (List.mem_singleton.mpr rfl))
      · right; exact ht

theorem pairConflicts_eq_nil_chain (c : String) :
    ∀ (l : List WorkOrder), pairConflicts c l = [] →
      List.Chain' (fun a b => a.endDate ≤ b.startDate) l := by
  intro l
  induction l with
  | nil => intro _; exact List.chain'_nil
  | cons a t ih =>
    cases t with
    | nil => intro _; exact List.chain'_singleton a
    | cons b rest =>
      intro h
      rw [pairConflicts] at h
      rcases List.append_eq_nil.mp h with ⟨h1, h2⟩
      rw [List.chain'_cons]
      constructor
      · by_contra hlt
        rw [if_pos (by omega)] at h1
        simp at h1
      · exact ih h2

theorem chain_sorted_pairwise :
    ∀ (l : List WorkOrder),
      List.Pairwise (fun a b : WorkOrder => a.startDate ≤ b.startDate) l →
      List.Chain' (fun a b : WorkOrder => a.endDate ≤ b.startDate) l →
      List.Pairwise (fun a b : WorkOrder => a.endDate ≤ b.startDate) l := by
  intro l
  induction l with
  | nil => intro _ _; exact List.Pairwise.nil
  | cons a t ih =>
    intro hp hc
    rw [List.pairwise_cons] at hp
    rw [List.pairwise_cons]
    cases t with
    | nil =>
      refine ⟨?_, List.Pairwise.nil⟩
      intro x hx
      simp at hx
    | cons b rest =>
      rw [List.chain'_cons] at hc
      rcases hc with ⟨hab, hcrest⟩
      refine ⟨?_, ih hp.2 hcrest⟩
      intro x hx
      rcases List.mem_cons.mp hx with rfl | hxr
      · exact hab
      · have hbx : b.startDate ≤ x.startDate :=
          (List.pairwise_cons.mp hp.2).1 x hxr
        omega

/-- C3: in every output `reflow` actually returns, two distinct orders on
the same work center occupy disjoint half-open intervals (one ends no
later than the other starts); in particular this holds for every pair of
distinct non-maintenance orders sharing a center. -/
theorem C3_no_overlap (input : ReflowInput) (r : ReflowResult)
    (h : reflow input = Except.ok r) (a b : WorkOrder)
    (ha : a ∈ r.updatedWorkOrders) (hb : b ∈ r.updatedWorkOrders)
    (hne : a ≠ b) (hma : a.isMaintenance = false)
    (hmb : b.isMaintenance = false) (hc : a.workCenterId = b.workCenterId) :
    a.endDate ≤ b.startDate ∨ b.endDate ≤ a.startDate := by
  have hval := (reflow_ok_structure h).choose_spec.2.2.2
  have herrs := (validateSchedule_valid_iff _ _).mp hval
  have hcc : checkWorkCenterConflicts r.updatedWorkOrders = [] := by
    unfold validateSchedule at herrs
    simp only at herrs
    rcases List.append_eq_nil.mp herrs with ⟨h1, -⟩
    rcases List.append_eq_nil.mp h1 with ⟨h3, -⟩
    exact (List.append_eq_nil.mp h3).1
  have hkeymem : a.workCenterId ∈
      firstDedup (r.updatedWorkOrders.map (fun wo => wo.workCenterId)) :=
    mem_firstDedup (List.mem_map_of_mem _ ha)
  have hpc : pairConflicts a.workCenterId
      ((r.updatedWorkOrders.filter
          (fun wo => wo.workCenterId == a.workCenterId)).mergeSort
        (fun x y => x.startDate ≤ y.startDate)) = [] := by
    have := flatMap_eq_nil_mem (f := fun workCenterId =>
      pairConflicts workCenterId
        ((r.updatedWorkOrders.filter
            (fun wo => wo.workCenterId == workCenterId)).mergeSort
          (fun x y => x.startDate ≤ y.startDate))) ?_ hkeymem
    · exact this
    · exact hcc
  have hsorted := @List.sorted_mergeSort WorkOrder
    (fun x y => decide (x.startDate ≤ y.startDate))
    (by intro x y z h1 h2; simp only [decide_eq_true_eq] at h1 h2 ⊢; omega)
    (by intro x y; simp only [Bool.or_eq_true, decide_eq_true_eq]; omega)
    (r.updatedWorkOrders.filter (fun wo => wo.workCenterId == a.workCenterId))
  have hchain := pairConflicts_eq_nil_chain a.workCenterId _ hpc
  have hpair := chain_sorted_pairwise _
    (hsorted.imp (fun hxy => by simpa using hxy)) hchain
  have hperm := List.mergeSort_perm
    (r.updatedWorkOrders.filter (fun wo => wo.workCenterId == a.workCenterId))
    (fun x y => decide (x.startDate ≤ y.startDate))
  have hno : List.Pairwise
      (fun x y : WorkOrder =>
        x.endDate ≤ y.startDate ∨ y.endDate ≤ x.startDate)
      (r.updatedWorkOrders.filter
        (fun wo => wo.workCenterId == a.workCenterId)) :=
    (List.Perm.pairwise_iff (fun hxy => hxy.symm) hperm).mp
      (hpair.imp Or.inl)
  have haf : a ∈ r.updatedWorkOrders.filter
      (fun wo => wo.workCenterId == a.workCenterId) :=
    List.mem_filter.mpr ⟨ha, by simp⟩
  have hbf : b ∈ r.updatedWorkOrders.filter
      (fun wo => wo.workCenterId == a.workCenterId) :=
    List.mem_filter.mpr ⟨hb, beq_iff_eq.mpr hc.symm⟩
  exact List.Pairwise.forall (fun x y hxy => hxy.symm) hno haf hbf hne

theorem C3_witness :
    (⟨"A", "C", 0, 60, 60, false, []⟩ : WorkOrder).endDate ≤
        (⟨"B", "C", 60, 120, 60, false, []⟩ : WorkOrder).startDate ∨
      (⟨"B", "C", 60, 120, 60, false, []⟩ : WorkOrder).endDate ≤
        (⟨"A", "C", 0, 60, 60, false, []⟩ : WorkOrder).startDate :=
  C3_no_overlap C3input C3result rfl
    ⟨"A", "C", 0, 60, 60, false, []⟩ ⟨"B", "C", 60, 120, 60, false, []⟩
    (by decide) (by decide) (by decide) (by decide) (by decide) rfl

/-! ## C1: idempotence machinery — association-list lemmas -/

/-- Folding the last-wins lookup step from any accumulator. -/
theorem assocGet_foldl_acc {α : Type} (k : String) :
    ∀ (l : List (String × α)) (a : Option α),
      l.foldl (fun acc p => if p.1 == k then some p.2 else acc) a =
        (assocGet l k).or a := by
  intro l
  induction l with
  | nil => intro a; simp [assocGet]
  | cons p t ih =>
    intro a
    have h2 : assocGet (p :: t) k =
        (assocGet t k).or (if p.1 == k then some p.2 else none) := by
      have := ih (if p.1 == k then some p.2 else none)
      unfold assocGet
      rw [List.foldl_cons]
      exact this
    rw [List.foldl_cons, ih, h2]
    cases assocGet t k with
    | some x => rfl
    | none =>
      simp only [Option.none_or]
      split <;> rfl

theorem assocGet_cons {α : Type} (p : String × α) (t : List (String × α))
    (k : String) :
    assocGet (p :: t) k =
      (assocGet t k).or (if p.1 == k then some p.2 else none) := by
  have := assocGet_foldl_acc k t (if p.1 == k then some p.2 else none)
  unfold assocGet
  rw [List.foldl_cons]
  exact this

theorem assocGet_append {α : Type} (l l' : List (String × α)) (k : String) :
    assocGet (l ++ l') k = (assocGet l' k).or (assocGet l k) := by
  have := assocGet_foldl_acc k l'
    (l.foldl (fun acc p => if p.1 == k then some p.2 else acc) none)
  unfold assocGet
  rw [List.foldl_append]
  exact this

theorem assocGet_map_replace_ne {α : Type} (k c : String) (v : α)
    (hck : c ≠ k) :
    ∀ (t : List (String × α)),
      assocGet (t.map (fun p => if p.1 == k then (k, v) else p)) c =
        assocGet t c := by
  intro t
  induction t with
  | nil => rfl
  | cons p t ih =>
    rw [List.map_cons, assocGet_cons, assocGet_cons, ih]
    congr 1
    by_cases hpk : p.1 == k
    · rw [if_pos hpk]
      rw [if_neg (by simpa using fun h => hck h.symm)]
      rw [if_neg (by
        have : p.1 = k := by simpa using hpk
        simpa [this] using fun h => hck h.symm)]
    · rw [if_neg hpk]

theorem assocGet_map_replace_eq {α : Type} (k : String) (v : α) :
    ∀ (t : List (String × α)), t.any (fun p => p.1 == k) = true →
      assocGet (t.map (fun p => if p.1 == k then (k, v) else p)) k =
        some v := by
  intro t
  induction t with
  | nil => intro h; simp at h
  | cons p t ih =>
    intro hany
    rw [List.map_cons, assocGet_cons]
    by_cases htany : t.any (fun p => p.1 == k) = true
    · rw [ih htany]
      rfl
    · have hpk : (p.1 == k) = true := by
        rcases List.any_eq_true.mp hany with ⟨q, hq, hqk⟩
        rcases List.mem_cons.mp hq with rfl | hqt
        · exact hqk
        · exact absurd (List.any_eq_true.mpr ⟨q, hqt, hqk⟩) htany
      have hnone : assocGet (t.map
          (fun p => if p.1 == k then (k, v) else p)) k = none := by
        apply assocGet_eq_none
        intro q hq'
        rcases List.mem_map.mp hq' with ⟨q0, hq0, rfl⟩
        have hq0k : (q0.1 == k) = false := by
          cases hk : q0.1 == k
          · rfl
          · exact absurd (List.any_eq_true.mpr ⟨q0, hq0, hk⟩) htany
        rw [if_neg (by simp [hq0k])]
        exact hq0k
      rw [hnone, if_pos hpk]
      simp

/-- `amSet` then lookup behaves as a map update. -/
theorem assocGet_amSet {α : Type} (m : List (String × α)) (k : String)
    (v : α) (c : String) :
    assocGet (amSet m k v) c = if c == k then some v else assocGet m c := by
  unfold amSet
  split
  · rename_i hany
    by_cases hck : c = k
    · subst hck
      rw [assocGet_map_replace_eq c v m hany]
      rw [if_pos (by simp)]
    · rw [assocGet_map_replace_ne k c v hck m]
      rw [if_neg (by simpa using hck)]
  · rw [assocGet_append]
    by_cases hck : c = k
    · subst hck
      rw [show assocGet [(c, v)] c = some v by simp [assocGet]]
      rw [if_pos (by simp)]
      rfl
    · rw [show assocGet [(k, v)] c = none by
        apply assocGet_eq_none
        intro p hp
        rcases List.mem_singleton.mp hp with rfl
        simp only [beq_eq_false_iff_ne, ne_eq]
        exact fun h => hck h.symm]
      rw [if_neg (by simpa using hck)]
      rfl

theorem assocGet_keyed_mem {α : Type} (f : WorkOrder → α) :
    ∀ {l : List WorkOrder} {k : String} {v : α},
      assocGet (l.map (fun o => (o.workOrderNumber, f o))) k = some v →
      ∃ o ∈ l, o.workOrderNumber = k ∧ v = f o := by
  intro l
  induction l with
  | nil => intro k v h; simp [assocGet] at h
  | cons o t ih =>
    intro k v h
    rw [List.map_cons, assocGet_cons] at h
    cases hg : assocGet (t.map (fun o => (o.workOrderNumber, f o))) k with
    | some x =>
      rw [hg] at h
      cases h
      rcases ih hg with ⟨o', ho', hk, hv⟩
      exact ⟨o', List.mem_cons_of_mem _ ho', hk, hv⟩
    | none =>
      rw [hg] at h
      simp only [Option.none_or] at h
      split at h
      · rename_i hbeq
        cases h
        exact ⟨o, List.mem_cons_self _ _, by simpa using hbeq, rfl⟩
      · exact absurd h (by simp)

theorem assocGet_self_of_nodup :
    ∀ {l : List WorkOrder},
      (l.map (fun o => o.workOrderNumber)).Nodup →
      ∀ {wo : WorkOrder}, wo ∈ l →
      assocGet (l.map (fun o => (o.workOrderNumber, o))) wo.workOrderNumber =
        some wo := by
  intro l
  induction l with
  | nil => intro _ wo hwo; simp at hwo
  | cons o t ih =>
    intro hnd wo hwo
    rw [List.map_cons] at hnd
    rw [List.map_cons, assocGet_cons]
    rcases List.mem_cons.mp hwo with rfl | hwt
    · have hnone : assocGet (t.map (fun o => (o.workOrderNumber, o)))
          wo.workOrderNumber = none := by
        apply assocGet_eq_none
        intro p hp
        rcases List.mem_map.mp hp with ⟨q, hq, rfl⟩
        have hnotin := (List.nodup_cons.mp hnd).1
        refine beq_eq_false_iff_ne.mpr ?_
        intro hqw
        exact hnotin (hqw ▸ List.mem_map_of_mem _ hq)
      rw [hnone]
      simp
    · rw [ih (List.nodup_cons.mp hnd).2 hwt]
      rfl

theorem nodup_key_eq {l : List WorkOrder}
    (hnd : (l.map (fun o => o.workOrderNumber)).Nodup)
    {a b : WorkOrder} (ha : a ∈ l) (hb : b ∈ l)
    (hk : a.workOrderNumber = b.workOrderNumber) : a = b := by
  have h1 := assocGet_self_of_nodup hnd ha
  have h2 := assocGet_self_of_nodup hnd hb
  rw [hk] at h1
  rw [h1] at h2
  exact Option.some.inj h2

theorem foldl_preserve_mem {α β : Type} (P : β → Prop) (f : β → α → β) :
    ∀ (l : List α), (∀ b a, a ∈ l → P b → P (f b a)) →
      ∀ (init : β), P init → P (l.foldl f init) := by
  intro l
  induction l with
  | nil => intro _ init h; exact h
  | cons a t ih =>
    intro hstep init h
    exact ih (fun b x hx hb => hstep b x (List.mem_cons_of_mem _ hx) hb) _
      (hstep init a (List.mem_cons_self _ _) h)

theorem maxEndsOf_le {b : Nat} (p : Nat × Nat) (rest : List (Nat × Nat))
    (hp : p.2 ≤ b) (hrest : ∀ q ∈ rest, q.2 ≤ b) : maxEndsOf p rest ≤ b := by
  unfold maxEndsOf
  refine foldl_preserve_mem (fun m => m ≤ b) _ rest ?_ p.2 hp
  intro m q hq hm
  have := hrest q hq
  omega

/-- Under the no-rescheduling invariant the pass's dependency-end lookup
always yields the stored end. -/
theorem parentEndUsed_stored {workOrders pre : List WorkOrder}
    (hnd : (workOrders.map (fun o => o.workOrderNumber)).Nodup)
    (hsub : ∀ o ∈ pre, o ∈ workOrders)
    {p : WorkOrder} (hp : p ∈ workOrders) :
    parentEndUsed
      (pre.map (fun o => (o.workOrderNumber, (o.startDate, o.endDate)))) p =
      p.endDate := by
  unfold parentEndUsed
  split
  · rfl
  · cases hg : assocGet
        (pre.map (fun o => (o.workOrderNumber, (o.startDate, o.endDate))))
        p.workOrderNumber with
    | none => rfl
    | some se =>
      rcases assocGet_keyed_mem (fun o => (o.startDate, o.endDate)) hg with
        ⟨o, ho, hok, rfl⟩
      rw [nodup_key_eq hnd (hsub o ho) hp hok]

/-- One placement step under already-satisfied constraints: the order is
re-placed exactly at its stored interval and no change is recorded. -/
theorem placeOne_noop (workOrders : List WorkOrder)
    (workCenters : List WorkCenter)
    (hnd : (workOrders.map (fun o => o.workOrderNumber)).Nodup)
    (pre : List WorkOrder) (st : PlaceState) (id : String) (wo : WorkOrder)
    (hid : byNumberOf workOrders id = some wo)
    (hsub : ∀ o ∈ pre, o ∈ workOrders)
    (hns : st.newSchedule =
      pre.map (fun o => (o.workOrderNumber, (o.startDate, o.endDate))))
    (hsched : ∀ c se, se ∈ (assocGet st.scheduledByCenter c).getD [] →
      ∃ o ∈ pre, o.workCenterId = c ∧ se = (o.startDate, o.endDate))
    (hprev : ∀ o ∈ pre, o.workCenterId = wo.workCenterId →
      o.endDate ≤ wo.startDate)
    (hdeps : ∀ depId ∈ wo.dependsOnWorkOrderIds, ∀ p,
      byNumberOf workOrders depId = some p → p.endDate ≤ wo.startDate)
    (havail : getNextAvailableStart wo.startDate
      (shiftsOfFn (wcByNameOf workCenters) wo)
      (windowsOfFn (wcByNameOf workCenters) wo) = wo.startDate)
    (hexact : calculateEndDateWithShiftsAndMaintenance wo.startDate
      wo.durationMinutes (shiftsOfFn (wcByNameOf workCenters) wo)
      (rangesOfFn (wcByNameOf workCenters) wo) = wo.endDate) :
    placeOne (byNumberOf workOrders) (wcByNameOf workCenters) st id =
      { scheduledByCenter := amSet st.scheduledByCenter wo.workCenterId
          (centerListOf st wo ++ [(wo.startDate, wo.endDate)])
        newSchedule := st.newSchedule ++ [(id, (wo.startDate, wo.endDate))]
        changes := st.changes
        explanationParts := st.explanationParts } := by
  have hle1 : (lastEndOnCenterOf st wo).getD wo.startDate ≤ wo.startDate := by
    unfold lastEndOnCenterOf
    cases hcl : centerListOf st wo with
    | nil => simp
    | cons p rest =>
      simp only [Option.getD_some]
      have hmemOf : ∀ q ∈ centerListOf st wo, q.2 ≤ wo.startDate := by
        intro q hq
        rcases hsched wo.workCenterId q hq with ⟨o, ho, hoc, hqe⟩
        rw [hqe]
        exact hprev o ho hoc
      apply maxEndsOf_le
      · exact hmemOf p (by rw [hcl]; exact List.mem_cons_self _ _)
      · intro q hq
        exact hmemOf q (by rw [hcl]; exact List.mem_cons_of_mem _ hq)
  have hle2 : (maxParentEndOf (byNumberOf workOrders) st wo).getD wo.startDate ≤
      wo.startDate := by
    unfold maxParentEndOf
    refine foldl_preserve_mem
      (fun acc : Option Nat => acc.getD wo.startDate ≤ wo.startDate) _
      wo.dependsOnWorkOrderIds ?_ none (by simp)
    intro acc depId hdep hacc
    cases hbn : byNumberOf workOrders depId with
    | none => simpa [hbn] using hacc
    | some parent =>
      have hpmem : parent ∈ workOrders := by
        rcases assocGet_keyed_mem (fun o => o) hbn with ⟨o, ho, -, rfl⟩
        exact ho
      have hpe : parentEndUsed st.newSchedule parent = parent.endDate := by
        rw [hns]
        exact parentEndUsed_stored hnd hsub hpmem
      have hple := hdeps depId hdep parent hbn
      simp only [hbn, hpe]
      cases acc with
      | none => simpa using hple
      | some m =>
        simp only [Option.getD_some] at hacc
        show (if parent.endDate > m then some parent.endDate
          else some m).getD wo.startDate ≤ wo.startDate
        by_cases hcmp : parent.endDate > m
        · rw [if_pos hcmp]; simpa using hple
        · rw [if_neg hcmp]; simpa using hacc
  have hc0 : candidateStart0Of (byNumberOf workOrders) st wo = wo.startDate := by
    unfold candidateStart0Of
    omega
  have hcand : candidateStartOf (byNumberOf workOrders)
      (wcByNameOf workCenters) st wo = wo.startDate := by
    unfold candidateStartOf
    rw [hc0]
    exact havail
  have hend : endOf (byNumberOf workOrders) (wcByNameOf workCenters) st wo =
      wo.endDate := by
    unfold endOf
    rw [hcand]
    exact hexact
  unfold placeOne
  rw [hid]
  simp [hcand, hend]

/-- The whole placement pass under already-satisfied constraints: every
order is re-placed at its stored interval, and no change or explanation is
appended. -/
theorem placeLoop_noop (workOrders : List WorkOrder)
    (workCenters : List WorkCenter)
    (hnd : (workOrders.map (fun o => o.workOrderNumber)).Nodup)
    (hord : ∀ wo ∈ workOrders, wo.isMaintenance = false →
      getNextAvailableStart wo.startDate
          (shiftsOfFn (wcByNameOf workCenters) wo)
          (windowsOfFn (wcByNameOf workCenters) wo) = wo.startDate ∧
      calculateEndDateWithShiftsAndMaintenance wo.startDate wo.durationMinutes
          (shiftsOfFn (wcByNameOf workCenters) wo)
          (rangesOfFn (wcByNameOf workCenters) wo) = wo.endDate ∧
      ∀ depId ∈ wo.dependsOnWorkOrderIds, ∀ p,
        byNumberOf workOrders depId = some p → p.endDate ≤ wo.startDate) :
    ∀ (ids : List String) (pre : List WorkOrder) (st : PlaceState),
      (∀ id ∈ ids, ∃ wo, byNumberOf workOrders id = some wo ∧
        wo.isMaintenance = false) →
      (∀ o ∈ pre, o ∈ workOrders) →
      List.Pairwise
        (fun o w : WorkOrder =>
          o.workCenterId = w.workCenterId → o.endDate ≤ w.startDate)
        (pre ++ ids.filterMap (byNumberOf workOrders)) →
      st.newSchedule =
        pre.map (fun o => (o.workOrderNumber, (o.startDate, o.endDate))) →
      (∀ c se, se ∈ (assocGet st.scheduledByCenter c).getD [] →
        ∃ o ∈ pre, o.workCenterId = c ∧ se = (o.startDate, o.endDate)) →
      (ids.foldl (placeOne (byNumberOf workOrders) (wcByNameOf workCenters))
          st).newSchedule =
        (pre ++ ids.filterMap (byNumberOf workOrders)).map
          (fun o => (o.workOrderNumber, (o.startDate, o.endDate))) ∧
      (ids.foldl (placeOne (byNumberOf workOrders) (wcByNameOf workCenters))
          st).changes = st.changes ∧
      (ids.foldl (placeOne (byNumberOf workOrders) (wcByNameOf workCenters))
          st).explanationParts = st.explanationParts := by
  intro ids
  induction ids with
  | nil =>
    intro pre st _ _ _ hns _
    refine ⟨?_, rfl, rfl⟩
    simpa using hns
  | cons id ids ih =>
    intro pre st hres hsub hpw hns hsched
    obtain ⟨wo, hid, hwm⟩ := hres id (List.mem_cons_self _ _)
    have hfm : (id :: ids).filterMap (byNumberOf workOrders) =
        wo :: ids.filterMap (byNumberOf workOrders) := by
      rw [List.filterMap_cons, hid]
    have hwomem : wo ∈ workOrders := by
      rcases assocGet_keyed_mem (fun o => o) hid with ⟨o, ho, -, rfl⟩
      exact ho
    have hwonum : wo.workOrderNumber = id := by
      rcases assocGet_keyed_mem (fun o => o) hid with ⟨o, -, hk, rfl⟩
      exact hk
    rw [hfm] at hpw
    have hpw' : List.Pairwise
        (fun o w : WorkOrder =>
          o.workCenterId = w.workCenterId → o.endDate ≤ w.startDate)
        ((pre ++ [wo]) ++ ids.filterMap (byNumberOf workOrders)) := by
      rw [List.append_assoc, List.singleton_append]
      exact hpw
    have hprev : ∀ o ∈ pre, o.workCenterId = wo.workCenterId →
        o.endDate ≤ wo.startDate := by
      intro o ho hoc
      rcases List.pairwise_append.mp hpw with ⟨-, -, hcross⟩
      exact hcross o ho wo (List.mem_cons_self _ _) hoc
    have hstep := placeOne_noop workOrders workCenters hnd pre st id wo hid
      hsub hns hsched hprev (hord wo hwomem hwm).2.2 (hord wo hwomem hwm).1
      (hord wo hwomem hwm).2.1
    rw [List.foldl_cons, hstep]
    have hout := ih (pre ++ [wo])
      { scheduledByCenter := amSet st.scheduledByCenter wo.workCenterId
          (centerListOf st wo ++ [(wo.startDate, wo.endDate)])
        newSchedule := st.newSchedule ++ [(id, (wo.startDate, wo.endDate))]
        changes := st.changes
        explanationParts := st.explanationParts }
      (fun i hi => hres i (List.mem_cons_of_mem _ hi))
      (by
        intro o ho
        rcases List.mem_append.mp ho with h | h
        · exact hsub o h
        · rcases List.mem_singleton.mp h with rfl
          exact hwomem)
      hpw'
      (by
        simp only [hns, List.map_append, List.map_cons, List.map_nil]
        rw [hwonum])
      (by
        intro c se hse
        rw [assocGet_amSet] at hse
        by_cases hck : c = wo.workCenterId
        · subst hck
          rw [if_pos (by simp)] at hse
          simp only [Option.getD_some] at hse
          rcases List.mem_append.mp hse with h | h
          · rcases hsched wo.workCenterId se h with ⟨o, ho, hoc, hoe⟩
            exact ⟨o, List.mem_append.mpr (Or.inl ho), hoc, hoe⟩
          · rcases List.mem_singleton.mp h with rfl
            exact ⟨wo,
              List.mem_append.mpr (Or.inr (List.mem_singleton.mpr rfl)),
              rfl, rfl⟩
        · rw [if_neg (by simpa using hck)] at hse
          rcases hsched c se hse with ⟨o, ho, hoc, hoe⟩
          exact ⟨o, List.mem_append.mpr (Or.inl ho), hoc, hoe⟩)
    refine ⟨?_, hout.2.1, hout.2.2⟩
    rw [hout.1, hfm]
    simp [List.map_append]

theorem processedSeq_subset (input : ReflowInput) :
    ∀ o ∈ processedSeq input, o ∈ input.workOrders := by
  intro o ho
  rcases List.mem_filterMap.mp ho with ⟨id, -, hid⟩
  rcases assocGet_keyed_mem (fun x => x) hid with ⟨x, hx, -, rfl⟩
  exact hx

theorem map_eq_self_of {α : Type} :
    ∀ (l : List α) (f : α → α), (∀ x ∈ l, f x = x) → l.map f = l := by
  intro l
  induction l with
  | nil => intro f _; rfl
  | cons a t ih =>
    intro f h
    rw [List.map_cons, h a (List.mem_cons_self _ _),
      ih f (fun x hx => h x (List.mem_cons_of_mem _ hx))]

theorem workOrder_eta (wo : WorkOrder) :
    ({ wo with startDate := wo.startDate, endDate := wo.endDate } :
      WorkOrder) = wo := rfl

/-- C1 amended: reflowing a valid schedule leaves it untouched — empty
change list, identical orders, valid output — provided additionally that
(i) order ids are unique and the dependency graph is acyclic, (ii) each
non-maintenance order's stored start is already an available moment and
its stored end equals the exact (not merely tolerance-close)
recomputation, (iii) each resolvable dependency ends no later than the
dependent's start, and (iv) along the placer's own processing order, an
earlier-processed order on the same center never ends after a
later-processed order's start.  (`validateSchedule`'s notion of validity
alone does not imply these: see the counterexample.) -/
theorem C1_idempotence_amended (input : ReflowInput)
    (hval : (validateSchedule input.workOrders input.workCenters).valid = true)
    (hlen : (kahnResult input.workOrders).length = input.workOrders.length)
    (hnd : (input.workOrders.map (fun o => o.workOrderNumber)).Nodup)
    (hord : ∀ wo ∈ input.workOrders, wo.isMaintenance = false →
      getNextAvailableStart wo.startDate
          (shiftsOfFn (wcByNameOf input.workCenters) wo)
          (windowsOfFn (wcByNameOf input.workCenters) wo) = wo.startDate ∧
      calculateEndDateWithShiftsAndMaintenance wo.startDate wo.durationMinutes
          (shiftsOfFn (wcByNameOf input.workCenters) wo)
          (rangesOfFn (wcByNameOf input.workCenters) wo) = wo.endDate ∧
      ∀ depId ∈ wo.dependsOnWorkOrderIds, ∀ p,
        byNumberOf input.workOrders depId = some p →
        p.endDate ≤ wo.startDate)
    (hpw : List.Pairwise
      (fun o w : WorkOrder =>
        o.workCenterId = w.workCenterId → o.endDate ≤ w.startDate)
      (processedSeq input)) :
    reflow input = Except.ok ⟨input.workOrders, [],
      ["No changes required; schedule already satisfies constraints."]⟩ ∧
    (validateSchedule input.workOrders input.workCenters).valid = true := by
  have htop : topologicalOrder input.workOrders =
      Except.ok (kahnResult input.workOrders) := by
    unfold topologicalOrder
    rw [if_neg (by simp [hlen])]
  have hloop := placeLoop_noop input.workOrders input.workCenters hnd hord
    (nonMaintIdsOf input) [] ⟨[], [], [], []⟩
    (by
      intro i hi
      have hpred := (List.mem_filter.mp hi).2
      cases hbn : byNumberOf input.workOrders i with
      | none => rw [hbn] at hpred; simp at hpred
      | some wo =>
        rw [hbn] at hpred
        exact ⟨wo, rfl, by simpa using hpred⟩)
    (by intro o ho; simp at ho)
    (by simpa using hpw)
    rfl
    (by intro c se hse; simp [assocGet] at hse)
  have hplace : placeAll input (kahnResult input.workOrders) =
      (nonMaintIdsOf input).foldl
        (placeOne (byNumberOf input.workOrders)
          (wcByNameOf input.workCenters)) ⟨[], [], [], []⟩ := rfl
  have hch : (placeAll input (kahnResult input.workOrders)).changes = [] := by
    rw [hplace]; exact hloop.2.1
  have hex : (placeAll input
      (kahnResult input.workOrders)).explanationParts = [] := by
    rw [hplace]; exact hloop.2.2
  have hnsfinal : (placeAll input (kahnResult input.workOrders)).newSchedule =
      (processedSeq input).map
        (fun o => (o.workOrderNumber, (o.startDate, o.endDate))) := by
    rw [hplace, hloop.1]
    simp [processedSeq]
  have hupd : updatedOrdersOf input.workOrders
      (placeAll input (kahnResult input.workOrders)).newSchedule =
      input.workOrders := by
    rw [hnsfinal, updatedOrdersOf_eq_map]
    apply map_eq_self_of
    intro wo hwo
    unfold updateFn
    by_cases hm : wo.isMaintenance
    · rw [if_pos hm]
    · rw [if_neg hm]
      cases hg : assocGet ((processedSeq input).map
          (fun o => (o.workOrderNumber, (o.startDate, o.endDate))))
          wo.workOrderNumber with
      | none => rfl
      | some se =>
        rcases assocGet_keyed_mem (fun o => (o.startDate, o.endDate)) hg with
          ⟨o, ho, hok, rfl⟩
        rw [nodup_key_eq hnd (processedSeq_subset input o ho) hwo hok]
  refine ⟨?_, hval⟩
  unfold reflow
  rw [htop]
  simp only [hupd, hch, hex, hval]
  rfl

/-- C1 counterexample: `validateSchedule` reports `C1input` valid, yet
`reflow` returns a non-empty `changes` list for it, refuting the claim
that reflowing an already-valid schedule produces no changes. -/
theorem C1_counterexample :
    (validateSchedule C1input.workOrders C1input.workCenters).valid = true ∧
    (reflow C1input).map (fun r => r.changes.isEmpty) = Except.ok false := by
  constructor
  · rfl
  · rfl

theorem C1_witness :
    reflow C1winput = Except.ok ⟨C1winput.workOrders, [],
      ["No changes required; schedule already satisfies constraints."]⟩ ∧
    (validateSchedule C1winput.workOrders C1winput.workCenters).valid =
      true := by
  refine C1_idempotence_amended C1winput (by decide) (by decide) (by decide)
    ?_ ?_
  · intro wo hwo hm
    simp only [C1winput] at hwo
    rcases List.mem_singleton.mp hwo with rfl
    refine ⟨by decide, by decide, ?_⟩
    intro depId hdep
    simp at hdep
  · have hps : processedSeq C1winput =
        [⟨"W", "C", 1440, 1500, 60, false, []⟩] := by rfl
    rw [hps]
    exact List.pairwise_singleton _ _

theorem isInShift_iff (t : Nat) (s : Shift) :
    isInShift t s = true ↔
      s.dayOfWeek = dayOfWeek t ∧ s.startHour ≤ hourOf t ∧
        hourOf t < s.endHour := by
  unfold isInShift
  by_cases hd : s.dayOfWeek ≠ dayOfWeek t
  · simp [hd]
  · push_neg at hd
    simp [hd]
    omega

theorem isWithinShift_iff (t : Nat) (shifts : List Shift) :
    isWithinShift t shifts = true ↔
      ∃ s ∈ shifts, s.dayOfWeek = dayOfWeek t ∧ s.startHour ≤ hourOf t ∧
        hourOf t < s.endHour := by
  unfold isWithinShift
  rw [List.any_eq_true]
  constructor
  · rintro ⟨s, hs, hin⟩
    exact ⟨s, hs, (isInShift_iff t s).mp hin⟩
  · rintro ⟨s, hs, hin⟩
    exact ⟨s, hs, (isInShift_iff t s).mpr hin⟩

theorem isInMaintenanceRange_iff (t : Nat) (ranges : List MaintenanceRange) :
    isInMaintenanceRange t ranges = true ↔
      ∃ r ∈ ranges, r.start ≤ t ∧ t < r.«end» := by
  unfold isInMaintenanceRange
  rw [List.any_eq_true]
  constructor
  · rintro ⟨r, hr, hc⟩
    simp only [Bool.and_eq_true, decide_eq_true_eq] at hc
    exact ⟨r, hr, hc⟩
  · rintro ⟨r, hr, h1, h2⟩
    exact ⟨r, hr, by simp [h1, h2]⟩

theorem startOfDay_le (t : Nat) : startOfDay t ≤ t := by
  unfold startOfDay
  omega

theorem lt_startOfDay_add (t : Nat) : t < startOfDay t + 1440 := by
  unfold startOfDay
  omega

theorem startOfDay_eq_of_mem (t u : Nat) (h1 : startOfDay t ≤ u)
    (h2 : u < startOfDay t + 1440) : startOfDay u = startOfDay t := by
  unfold startOfDay at h1 h2 ⊢
  omega

theorem dayOfWeek_eq_of_startOfDay (t u : Nat)
    (h : startOfDay u = startOfDay t) : dayOfWeek u = dayOfWeek t := by
  unfold startOfDay at h
  unfold dayOfWeek
  omega

theorem hourOf_ge_iff (t h : Nat) :
    h ≤ hourOf t ↔ startOfDay t + h * 60 ≤ t := by
  unfold hourOf startOfDay
  omega

theorem hourOf_lt_iff (t h : Nat) :
    hourOf t < h ↔ t < startOfDay t + h * 60 := by
  unfold hourOf startOfDay
  omega

theorem getShiftSegmentEnd_spec (t : Nat) (shifts : List Shift)
    (h : isWithinShift t shifts = true) :
    ∃ s ∈ shifts, s.dayOfWeek = dayOfWeek t ∧ s.startHour ≤ hourOf t ∧
      hourOf t < s.endHour ∧
      getShiftSegmentEnd t shifts = startOfDay t + s.endHour * 60 := by
  rcases (isWithinShift_iff t shifts).mp h with ⟨s, hs, hd, h1, h2⟩
  unfold getShiftSegmentEnd
  cases hf : shifts.find? (fun s =>
      s.dayOfWeek == dayOfWeek t &&
      decide (s.startHour ≤ hourOf t) && decide (hourOf t < s.endHour)) with
  | none =>
    exfalso
    have := List.find?_eq_none.mp hf s hs
    simp [hd, h1, h2] at this
  | some s0 =>
    have hmem := List.mem_of_find?_eq_some hf
    have hcond := List.find?_some hf
    simp only [Bool.and_eq_true, beq_iff_eq, decide_eq_true_eq] at hcond
    exact ⟨s0, hmem, hcond.1.1, hcond.1.2, hcond.2, rfl⟩

theorem getShiftSegmentEnd_gt (t : Nat) (shifts : List Shift)
    (h : isWithinShift t shifts = true) :
    t < getShiftSegmentEnd t shifts := by
  rcases getShiftSegmentEnd_spec t shifts h with ⟨s, -, -, -, h2, heq⟩
  rw [heq]
  exact (hourOf_lt_iff t s.endHour).mp h2

/-- Every minute of the shift segment is inside a shift (well-formed
hour bounds). -/
theorem segment_within (t u : Nat) (shifts : List Shift)
    (hwf : ∀ s ∈ shifts, s.endHour ≤ 24)
    (ht : isWithinShift t shifts = true)
    (hu1 : t ≤ u) (hu2 : u < getShiftSegmentEnd t shifts) :
    isWithinShift u shifts = true := by
  rcases getShiftSegmentEnd_spec t shifts ht with ⟨s, hs, hd, h1, h2, heq⟩
  rw [heq] at hu2
  have hend24 := hwf s hs
  have hDle : startOfDay t ≤ u := le_trans (startOfDay_le t) hu1
  have hDlt : u < startOfDay t + 1440 := by
    have : s.endHour * 60 ≤ 1440 := by omega
    omega
  have hsame : startOfDay u = startOfDay t := startOfDay_eq_of_mem t u hDle hDlt
  refine (isWithinShift_iff u shifts).mpr ⟨s, hs, ?_, ?_, ?_⟩
  · rw [hd]
    exact (dayOfWeek_eq_of_startOfDay t u hsame).symm
  · rw [hourOf_ge_iff, hsame]
    have := (hourOf_ge_iff t s.startHour).mp h1
    omega
  · rw [hourOf_lt_iff, hsame]
    exact hu2

/-- The maintenance clamp never raises the running segment end. -/
theorem clampFold_le_acc (t : Nat) :
    ∀ (l : List MaintenanceRange) (acc : Nat),
      l.foldl (fun segmentEnd r =>
        if decide (t < r.start) && decide (r.start < segmentEnd) then r.start
        else segmentEnd) acc ≤ acc := by
  intro l
  induction l with
  | nil => intro acc; exact le_refl acc
  | cons r rest ih =>
    intro acc
    rw [List.foldl_cons]
    by_cases hc : (decide (t < r.start) && decide (r.start < acc)) = true
    · rw [if_pos hc]
      simp only [Bool.and_eq_true, decide_eq_true_eq] at hc
      exact le_trans (ih r.start) (by omega)
    · rw [if_neg hc]
      exact ih acc

/-- The clamped segment end never passes a maintenance start beyond `t`. -/
theorem clampFold_le_start (t : Nat) (r0 : MaintenanceRange)
    (ht : t < r0.start) :
    ∀ (l : List MaintenanceRange) (acc : Nat), r0 ∈ l →
      l.foldl (fun segmentEnd r =>
        if decide (t < r.start) && decide (r.start < segmentEnd) then r.start
        else segmentEnd) acc ≤ r0.start := by
  intro l
  induction l with
  | nil => intro acc h; simp at h
  | cons r rest ih =>
    intro acc hmem
    rw [List.foldl_cons]
    rcases List.mem_cons.mp hmem with heq | hrest
    · rw [← heq]
      by_cases hc : (decide (t < r0.start) && decide (r0.start < acc)) = true
      · rw [if_pos hc]
        exact clampFold_le_acc t rest r0.start
      · rw [if_neg hc]
        have hnlt : ¬r0.start < acc := by
          intro hlt
          exact hc (by simp [ht, hlt])
        exact le_trans (clampFold_le_acc t rest acc) (by omega)
    · by_cases hc : (decide (t < r.start) && decide (r.start < acc)) = true
      · rw [if_pos hc]
        exact ih r.start hrest
      · rw [if_neg hc]
        exact ih acc hrest

/-- The clamped segment end stays strictly beyond `t`. -/
theorem clampFold_gt (t : Nat) :
    ∀ (l : List MaintenanceRange) (acc : Nat), t < acc →
      t < l.foldl (fun segmentEnd r =>
        if decide (t < r.start) && decide (r.start < segmentEnd) then r.start
        else segmentEnd) acc := by
  intro l
  induction l with
  | nil => intro acc h; exact h
  | cons r rest ih =>
    intro acc h
    rw [List.foldl_cons]
    by_cases hc : (decide (t < r.start) && decide (r.start < acc)) = true
    · rw [if_pos hc]
      simp only [Bool.and_eq_true, decide_eq_true_eq] at hc
      exact ih r.start hc.1
    · rw [if_neg hc]
      exact ih acc h

theorem getWorkingSegmentEnd_gt (t : Nat) (shifts : List Shift)
    (ranges : List MaintenanceRange)
    (h : isWithinShift t shifts = true) :
    t < getWorkingSegmentEnd t shifts ranges :=
  clampFold_gt t ranges _ (getShiftSegmentEnd_gt t shifts h)

theorem getWorkingSegmentEnd_le (t : Nat) (shifts : List Shift)
    (ranges : List MaintenanceRange) :
    getWorkingSegmentEnd t shifts ranges ≤ getShiftSegmentEnd t shifts :=
  clampFold_le_acc t ranges _

/-- No minute of the working segment lies in a maintenance range. -/
theorem segment_no_maintenance (t u : Nat) (shifts : List Shift)
    (ranges : List MaintenanceRange)
    (ht : isInMaintenanceRange t ranges = false)
    (hu1 : t ≤ u) (hu2 : u < getWorkingSegmentEnd t shifts ranges) :
    isInMaintenanceRange u ranges = false := by
  cases hm : isInMaintenanceRange u ranges with
  | false => rfl
  | true =>
    exfalso
    rcases (isInMaintenanceRange_iff u ranges).mp hm with ⟨r, hr, hr1, hr2⟩
    by_cases hts : t < r.start
    · have hle := clampFold_le_start t r hts ranges
        (getShiftSegmentEnd t shifts) hr
      unfold getWorkingSegmentEnd at hu2
      omega
    · have hnott : ¬(r.start ≤ t ∧ t < r.«end») := by
        intro hcon
        have : isInMaintenanceRange t ranges = true :=
          (isInMaintenanceRange_iff t ranges).mpr ⟨r, hr, hcon⟩
        rw [this] at ht
        exact Bool.noConfusion ht
      omega

theorem foldl_bestOf_some :
    ∀ (l : List Nat) (b m : Nat), l.foldl bestOf (some b) = some m →
      (m = b ∨ m ∈ l) ∧ m ≤ b ∧ ∀ x ∈ l, m ≤ x := by
  intro l
  induction l with
  | nil =>
    intro b m h
    simp only [List.foldl_nil] at h
    cases h
    exact ⟨Or.inl rfl, le_refl _, by intro x hx; simp at hx⟩
  | cons c t ih =>
    intro b m h
    rw [List.foldl_cons] at h
    by_cases hcb : c < b
    · rw [show bestOf (some b) c = some c from by simp [bestOf, hcb]] at h
      rcases ih c m h with ⟨h1, h2, h3⟩
      refine ⟨?_, by omega, ?_⟩
      · rcases h1 with rfl | h1
        · exact Or.inr (List.mem_cons_self _ _)
        · exact Or.inr (List.mem_cons_of_mem _ h1)
      · intro x hx
        rcases List.mem_cons.mp hx with rfl | hx
        · exact h2
        · exact h3 x hx
    · rw [show bestOf (some b) c = some b from by simp [bestOf, hcb]] at h
      rcases ih b m h with ⟨h1, h2, h3⟩
      refine ⟨?_, h2, ?_⟩
      · rcases h1 with rfl | h1
        · exact Or.inl rfl
        · exact Or.inr (List.mem_cons_of_mem _ h1)
      · intro x hx
        rcases List.mem_cons.mp hx with rfl | hx
        · omega
        · exact h3 x hx

theorem foldl_bestOf_none_some :
    ∀ (l : List Nat) (m : Nat), l.foldl bestOf none = some m →
      m ∈ l ∧ ∀ x ∈ l, m ≤ x := by
  intro l m h
  cases l with
  | nil => simp [List.foldl_nil] at h
  | cons c t =>
    rw [List.foldl_cons, show bestOf none c = some c from rfl] at h
    rcases foldl_bestOf_some t c m h with ⟨h1, h2, h3⟩
    refine ⟨?_, ?_⟩
    · rcases h1 with rfl | h1
      · exact List.mem_cons_self _ _
      · exact List.mem_cons_of_mem _ h1
    · intro x hx
      rcases List.mem_cons.mp hx with rfl | hx
      · exact h2
      · exact h3 x hx

theorem foldl_bestOf_some_ne_none :
    ∀ (l : List Nat) (b : Nat), l.foldl bestOf (some b) ≠ none := by
  intro l
  induction l with
  | nil => intro b h; simp at h
  | cons c t ih =>
    intro b
    rw [List.foldl_cons]
    by_cases hcb : c < b
    · rw [show bestOf (some b) c = some c from by simp [bestOf, hcb]]
      exact ih c
    · rw [show bestOf (some b) c = some b from by simp [bestOf, hcb]]
      exact ih b

/-- Characterization of candidate membership. -/
theorem mem_shiftStartCandidates (dt c : Nat) (shifts : List Shift) :
    c ∈ shiftStartCandidates dt shifts ↔
      ∃ d < 8, ∃ s ∈ shifts, s.dayOfWeek = dayOfWeek (dt + d * 1440) ∧
        c = startOfDay (dt + d * 1440) + s.startHour * 60 ∧ dt ≤ c := by
  unfold shiftStartCandidates
  rw [List.mem_flatMap]
  constructor
  · rintro ⟨d, hd, hc⟩
    rcases List.mem_filterMap.mp hc with ⟨s, hs, hsc⟩
    have hd8 := List.mem_range.mp hd
    by_cases hday : s.dayOfWeek == dayOfWeek (dt + d * 1440)
    · rw [if_pos hday] at hsc
      by_cases hge : dt ≤ startOfDay (dt + d * 1440) + s.startHour * 60
      · rw [if_pos hge] at hsc
        cases hsc
        exact ⟨d, hd8, s, hs, by simpa using hday, rfl, hge⟩
      · rw [if_neg hge] at hsc
        exact absurd hsc (by simp)
    · rw [if_neg hday] at hsc
      exact absurd hsc (by simp)
  · rintro ⟨d, hd8, s, hs, hday, rfl, hge⟩
    refine ⟨d, List.mem_range.mpr hd8, List.mem_filterMap.mpr ⟨s, hs, ?_⟩⟩
    rw [if_pos (by simpa using hday), if_pos hge]

theorem getNextShiftStart_ge (dt : Nat) (shifts : List Shift) :
    dt ≤ getNextShiftStart dt shifts := by
  unfold getNextShiftStart
  split
  · exact le_refl dt
  · cases hf : (shiftStartCandidates dt shifts).foldl bestOf none with
    | none => exact le_refl dt
    | some m =>
      rcases foldl_bestOf_none_some _ m hf with ⟨hmem, -⟩
      rcases (mem_shiftStartCandidates dt m shifts).mp hmem with
        ⟨d, -, s, -, -, -, hge⟩
      exact hge

/-- `getNextShiftStart` is a lower bound of every scanned candidate. -/
theorem getNextShiftStart_min (dt : Nat) (shifts : List Shift) (c : Nat)
    (hne : shifts.isEmpty = false)
    (hc : c ∈ shiftStartCandidates dt shifts) :
    getNextShiftStart dt shifts ≤ c := by
  unfold getNextShiftStart
  rw [hne]
  simp only [Bool.false_eq_true, if_false]
  cases hcand : shiftStartCandidates dt shifts with
  | nil => rw [hcand] at hc; simp at hc
  | cons a t =>
    cases hf : (a :: t).foldl bestOf none with
    | none =>
      exfalso
      rw [List.foldl_cons, show bestOf none a = some a from rfl] at hf
      exact foldl_bestOf_some_ne_none t a hf
    | some m =>
      rcases foldl_bestOf_none_some (a :: t) m hf with ⟨-, hall⟩
      rw [hcand] at hc
      exact hall c hc

/-- No in-shift minute lies strictly between a non-working instant and the
next shift start found for it. -/
theorem getNextShiftStart_skips (dt u : Nat) (shifts : List Shift)
    (hwf : ∀ s ∈ shifts, s.startHour < 24)
    (hdt : isWithinShift dt shifts = false)
    (hu1 : dt ≤ u) (hu2 : u < getNextShiftStart dt shifts) :
    isWithinShift u shifts = false := by
  cases hut : isWithinShift u shifts with
  | false => rfl
  | true =>
    exfalso
    rcases (isWithinShift_iff u shifts).mp hut with ⟨s, hs, hd, h1, h2⟩
    have hne : shifts.isEmpty = false := by
      cases shifts with
      | nil => simp at hs
      | cons a t => rfl
    have hc1 : startOfDay u + s.startHour * 60 ≤ u :=
      (hourOf_ge_iff u s.startHour).mp h1
    by_cases hcdt : startOfDay u + s.startHour * 60 < dt
    · have hdlt : dt < startOfDay u + 1440 := by
        have := lt_startOfDay_add u
        omega
      have hsame : startOfDay dt = startOfDay u := by
        have hle : startOfDay u ≤ dt := by omega
        exact startOfDay_eq_of_mem u dt hle hdlt
      have : isWithinShift dt shifts = true := by
        refine (isWithinShift_iff dt shifts).mpr ⟨s, hs, ?_, ?_, ?_⟩
        · rw [hd]
          exact (dayOfWeek_eq_of_startOfDay u dt hsame).symm
        · rw [hourOf_ge_iff, hsame]
          omega
        · rw [hourOf_lt_iff, hsame]
          have hu2' := (hourOf_lt_iff u s.endHour).mp h2
          omega
      rw [this] at hdt
      exact Bool.noConfusion hdt
    · push_neg at hcdt
      by_cases hnear : startOfDay u < startOfDay dt + 8 * 1440
      · have hdle : startOfDay dt ≤ startOfDay u := by
          unfold startOfDay
          omega
        have hcmem : startOfDay u + s.startHour * 60 ∈
            shiftStartCandidates dt shifts := by
          refine (mem_shiftStartCandidates dt _ shifts).mpr
            ⟨u / 1440 - dt / 1440, ?_, s, hs, ?_, ?_, hcdt⟩
          · unfold startOfDay at hnear
            omega
          · rw [hd]
            unfold dayOfWeek
            omega
          · unfold startOfDay
            omega
        have := getNextShiftStart_min dt shifts _ hne hcmem
        omega
      · push_neg at hnear
        have hsh24 := hwf s hs
        have hdw : dayOfWeek u = (u / 1440) % 7 := rfl
        obtain ⟨d1, hd1a, hd1b, hd1c⟩ :
            ∃ d1, 1 ≤ d1 ∧ d1 ≤ 7 ∧
              (dt / 1440 + d1) % 7 = (u / 1440) % 7 := by
          refine ⟨((u / 1440) % 7 + 7 - (dt / 1440 % 7 + 1)) % 7 + 1,
            ?_, ?_, ?_⟩ <;> omega
        have hcmem : startOfDay dt + d1 * 1440 + s.startHour * 60 ∈
            shiftStartCandidates dt shifts := by
          refine (mem_shiftStartCandidates dt _ shifts).mpr
            ⟨d1, by omega, s, hs, ?_, ?_, ?_⟩
          · rw [hd]
            unfold dayOfWeek
            omega
          · unfold startOfDay
            omega
          · have := startOfDay_le dt
            have := lt_startOfDay_add dt
            omega
        have hmin := getNextShiftStart_min dt shifts _ hne hcmem
        omega

/-- When an instant is in maintenance, `getMaintenanceRangeEnd` returns the
end of a containing listed range. -/
theorem getMaintenanceRangeEnd_spec (cur : Nat)
    (ranges : List MaintenanceRange)
    (h : isInMaintenanceRange cur ranges = true) :
    ∃ r ∈ ranges, getMaintenanceRangeEnd cur ranges = some r.«end» ∧
      r.start ≤ cur ∧ cur < r.«end» := by
  unfold isInMaintenanceRange at h
  rw [List.any_eq_true] at h
  rcases h with ⟨r0, hr0, hp⟩
  unfold getMaintenanceRangeEnd
  cases hf : ranges.find?
      (fun r => decide (r.start ≤ cur) && decide (cur < r.«end»)) with
  | none => exact absurd hp (List.find?_eq_none.mp hf r0 hr0)
  | some r =>
    have hmem := List.mem_of_find?_eq_some hf
    have hcond := List.find?_some hf
    simp only [Bool.and_eq_true, decide_eq_true_eq] at hcond
    exact ⟨r, hmem, rfl, hcond.1, hcond.2⟩

/-- The next-working-moment walk never moves backwards. -/
theorem gnwmGo_ge (shifts : List Shift) (ranges : List MaintenanceRange) :
    ∀ (fuel cur : Nat),
      cur ≤ getNextWorkingMomentGo shifts ranges fuel cur := by
  intro fuel
  induction fuel with
  | zero => intro cur; exact le_refl cur
  | succ f ih =>
    intro cur
    unfold getNextWorkingMomentGo
    by_cases hb1 : (shifts.length > 0 && !isWithinShift cur shifts) = true
    · rw [if_pos hb1]
      exact le_trans (getNextShiftStart_ge cur shifts) (ih _)
    · rw [if_neg hb1]
      by_cases hb2 : (ranges.length > 0 && isInMaintenanceRange cur ranges)
          = true
      · rw [if_pos hb2]
        have hcm : isInMaintenanceRange cur ranges = true := by
          simp only [Bool.and_eq_true] at hb2
          exact hb2.2
        rcases getMaintenanceRangeEnd_spec cur ranges hcm with
          ⟨r, hr, heq, hr1, hr2⟩
        simp only [heq]
        exact le_trans (le_of_lt hr2) (ih _)
      · rw [if_neg hb2]

/-- Every minute the next-working-moment walk jumps over is non-working
(outside every shift, or inside a maintenance range). -/
theorem gnwmGo_skips (shifts : List Shift) (ranges : List MaintenanceRange)
    (hwf : ∀ s ∈ shifts, s.startHour < 24) :
    ∀ (fuel cur u : Nat), cur ≤ u →
      u < getNextWorkingMomentGo shifts ranges fuel cur →
      (isWithinShift u shifts && !isInMaintenanceRange u ranges) = false := by
  intro fuel
  induction fuel with
  | zero =>
    intro cur u h1 h2
    exact absurd h2 (by unfold getNextWorkingMomentGo; omega)
  | succ f ih =>
    intro cur u h1 h2
    unfold getNextWorkingMomentGo at h2
    by_cases hb1 : (shifts.length > 0 && !isWithinShift cur shifts) = true
    · rw [if_pos hb1] at h2
      by_cases hlt : u < getNextShiftStart cur shifts
      · have hcs : isWithinShift cur shifts = false := by
          simp only [Bool.and_eq_true, Bool.not_eq_true'] at hb1
          exact hb1.2
        have := getNextShiftStart_skips cur u shifts hwf hcs h1 hlt
        simp [this]
      · push_neg at hlt
        exact ih _ u hlt h2
    · rw [if_neg hb1] at h2
      by_cases hb2 : (ranges.length > 0 && isInMaintenanceRange cur ranges)
          = true
      · rw [if_pos hb2] at h2
        have hcm : isInMaintenanceRange cur ranges = true := by
          simp only [Bool.and_eq_true] at hb2
          exact hb2.2
        rcases getMaintenanceRangeEnd_spec cur ranges hcm with
          ⟨r, hr, heq, hr1, hr2⟩
        simp only [heq] at h2
        by_cases hlt : u < r.«end»
        · have : isInMaintenanceRange u ranges = true :=
            (isInMaintenanceRange_iff u ranges).mpr ⟨r, hr, by omega, hlt⟩
          simp [this]
        · push_neg at hlt
          exact ih _ u hlt h2
      · rw [if_neg hb2] at h2
        exact absurd h2 (by omega)

theorem specWM_all (start n : Nat) (shifts : List Shift)
    (ranges : List MaintenanceRange)
    (h : ∀ k, k < n → (isWithinShift (start + k) shifts &&
      !isInMaintenanceRange (start + k) ranges) = true) :
    specWorkingMinutes start (start + n) shifts ranges = n := by
  unfold specWorkingMinutes
  rw [show start + n - start = n from by omega]
  rw [List.filter_eq_self.mpr (fun k hk => h k (List.mem_range.mp hk))]
  exact List.length_range n

theorem specWM_none (a b : Nat) (shifts : List Shift)
    (ranges : List MaintenanceRange)
    (h : ∀ u, a ≤ u → u < b → (isWithinShift u shifts &&
      !isInMaintenanceRange u ranges) = false) :
    specWorkingMinutes a b shifts ranges = 0 := by
  unfold specWorkingMinutes
  rw [List.length_eq_zero]
  rw [List.filter_eq_nil_iff]
  intro k hk
  have hkr := List.mem_range.mp hk
  have := h (a + k) (by omega) (by omega)
  simp [this]

theorem specWM_add (a b c : Nat) (shifts : List Shift)
    (ranges : List MaintenanceRange) (h1 : a ≤ b) (h2 : b ≤ c) :
    specWorkingMinutes a c shifts ranges =
      specWorkingMinutes a b shifts ranges +
      specWorkingMinutes b c shifts ranges := by
  unfold specWorkingMinutes
  rw [show c - a = (b - a) + (c - b) from by omega, List.range_add,
    List.filter_append, List.length_append,
    show b - a = b - a from rfl]
  congr 1
  rw [List.filter_map, List.length_map]
  congr 1
  apply List.filter_congr
  intro k hk
  have hab : a + (b - a + k) = b + k := by omega
  simp only [Function.comp_apply, hab]

/-- Main conservation invariant: whenever `calcGoChk` certifies the walk,
the end instant `calcGo` returns is exactly `remaining` working minutes
after the current instant. -/
theorem calcGo_conserves (shifts : List Shift)
    (ranges : List MaintenanceRange)
    (hwf : ∀ s ∈ shifts, s.startHour < 24 ∧ s.endHour ≤ 24) :
    ∀ (fuel current remaining : Nat),
      calcGoChk shifts ranges fuel current remaining = true →
      current ≤ calcGo shifts ranges fuel current remaining ∧
      specWorkingMinutes current
        (calcGo shifts ranges fuel current remaining) shifts ranges =
        remaining := by
  have hwf1 : ∀ s ∈ shifts, s.startHour < 24 := fun s hs => (hwf s hs).1
  have hwf2 : ∀ s ∈ shifts, s.endHour ≤ 24 := fun s hs => (hwf s hs).2
  intro fuel
  induction fuel with
  | zero =>
    intro current remaining h
    unfold calcGoChk at h
    have h0 : remaining = 0 := by simpa using h
    subst h0
    unfold calcGo
    refine ⟨le_refl _, ?_⟩
    unfold specWorkingMinutes
    simp
  | succ f ih =>
    intro current remaining h
    unfold calcGoChk at h
    unfold calcGo
    by_cases hr0 : (remaining == 0) = true
    · rw [if_pos hr0] at h ⊢
      have h0 : remaining = 0 := by simpa using hr0
      subst h0
      refine ⟨le_refl _, ?_⟩
      unfold specWorkingMinutes
      simp
    · rw [if_neg hr0] at h ⊢
      by_cases hw : (!isWithinShift current shifts ||
          isInMaintenanceRange current ranges) = true
      · rw [if_pos hw] at h
        exact absurd h (by simp)
      · rw [if_neg hw] at h
        have hws : isWithinShift current shifts = true := by
          simp only [Bool.or_eq_true, Bool.not_eq_true'] at hw
          push_neg at hw
          cases hx : isWithinShift current shifts with
          | true => rfl
          | false => exact absurd hx hw.1
        have hnm : isInMaintenanceRange current ranges = false := by
          simp only [Bool.or_eq_true, Bool.not_eq_true'] at hw
          push_neg at hw
          cases hx : isInMaintenanceRange current ranges with
          | false => rfl
          | true => exact absurd hx hw.2
        have hgt : current < getWorkingSegmentEnd current shifts ranges :=
          getWorkingSegmentEnd_gt current shifts ranges hws
        simp only at h ⊢
        rw [if_neg (show ((getWorkingSegmentEnd current shifts ranges -
            current) == 0) = true → False from by simp; omega)]
        by_cases hle : remaining ≤
            getWorkingSegmentEnd current shifts ranges - current
        · rw [if_pos hle] at h ⊢
          refine ⟨by omega, ?_⟩
          apply specWM_all
          intro k hk
          have hseg : current + k < getWorkingSegmentEnd current shifts
              ranges := by omega
          have h1 : isWithinShift (current + k) shifts = true := by
            apply segment_within current (current + k) shifts hwf2 hws
              (by omega)
            exact lt_of_lt_of_le hseg
              (getWorkingSegmentEnd_le current shifts ranges)
          have h2 : isInMaintenanceRange (current + k) ranges = false :=
            segment_no_maintenance current (current + k) shifts ranges hnm
              (by omega) hseg
          simp [h1, h2]
        · rw [if_neg hle] at h ⊢
          rcases ih _ _ h with ⟨hle2, hspec⟩
          have hnext : getWorkingSegmentEnd current shifts ranges ≤
              getNextWorkingMoment
                (getWorkingSegmentEnd current shifts ranges) shifts ranges :=
            gnwmGo_ge shifts ranges 1000 _
          refine ⟨by omega, ?_⟩
          rw [specWM_add current (getWorkingSegmentEnd current shifts ranges)
            _ shifts ranges (by omega) (by omega)]
          rw [specWM_add (getWorkingSegmentEnd current shifts ranges)
            (getNextWorkingMoment (getWorkingSegmentEnd current shifts
              ranges) shifts ranges) _ shifts ranges hnext hle2]
          have hfirst : specWorkingMinutes current
              (getWorkingSegmentEnd current shifts ranges) shifts ranges =
              getWorkingSegmentEnd current shifts ranges - current := by
            rw [show getWorkingSegmentEnd current shifts ranges =
              current + (getWorkingSegmentEnd current shifts ranges -
                current) from by omega]
            rw [show current + (getWorkingSegmentEnd current shifts ranges -
              current) - current =
              getWorkingSegmentEnd current shifts ranges - current from by
                omega]
            apply specWM_all
            intro k hk
            have hseg : current + k < getWorkingSegmentEnd current shifts
                ranges := by omega
            have h1 : isWithinShift (current + k) shifts = true := by
              apply segment_within current (current + k) shifts hwf2 hws
                (by omega)
              exact lt_of_lt_of_le hseg
                (getWorkingSegmentEnd_le current shifts ranges)
            have h2 : isInMaintenanceRange (current + k) ranges = false :=
              segment_no_maintenance current (current + k) shifts ranges
                hnm (by omega) hseg
            simp [h1, h2]
          have hmid : specWorkingMinutes
              (getWorkingSegmentEnd current shifts ranges)
              (getNextWorkingMoment (getWorkingSegmentEnd current shifts
                ranges) shifts ranges) shifts ranges = 0 := by
            apply specWM_none
            intro u hu1 hu2
            exact gnwmGo_skips shifts ranges hwf1 1000 _ u hu1 hu2
          rw [hfirst, hmid, hspec]
          omega

/-- Every entry the placement pass records pairs a non-maintenance order
with an end computed by the shift/maintenance walk from that entry's own
start. -/
theorem placeAll_newSchedule_spec (input : ReflowInput)
    (orderIds : List String) :
    ∀ p ∈ (placeAll input orderIds).newSchedule,
      ∃ wo, byNumberOf input.workOrders p.1 = some wo ∧
        wo.isMaintenance = false ∧
        p.2.2 = calculateEndDateWithShiftsAndMaintenance p.2.1
          wo.durationMinutes
          (shiftsOfFn (wcByNameOf input.workCenters) wo)
          (rangesOfFn (wcByNameOf input.workCenters) wo) := by
  have key : ∀ (ids : List String),
      (∀ id ∈ ids, (match byNumberOf input.workOrders id with
        | some wo => !wo.isMaintenance
        | none => false) = true) →
      ∀ (st : PlaceState),
      (∀ p ∈ st.newSchedule,
        ∃ wo, byNumberOf input.workOrders p.1 = some wo ∧
          wo.isMaintenance = false ∧
          p.2.2 = calculateEndDateWithShiftsAndMaintenance p.2.1
            wo.durationMinutes
            (shiftsOfFn (wcByNameOf input.workCenters) wo)
            (rangesOfFn (wcByNameOf input.workCenters) wo)) →
      ∀ p ∈ (ids.foldl (placeOne (byNumberOf input.workOrders)
          (wcByNameOf input.workCenters)) st).newSchedule,
        ∃ wo, byNumberOf input.workOrders p.1 = some wo ∧
          wo.isMaintenance = false ∧
          p.2.2 = calculateEndDateWithShiftsAndMaintenance p.2.1
            wo.durationMinutes
            (shiftsOfFn (wcByNameOf input.workCenters) wo)
            (rangesOfFn (wcByNameOf input.workCenters) wo) := by
    intro ids
    induction ids with
    | nil => intro _ st hst; exact hst
    | cons id rest ih =>
      intro hall st hst
      rw [List.foldl_cons]
      refine ih (fun x hx => hall x (List.mem_cons_of_mem _ hx)) _ ?_
      intro p hp
      unfold placeOne at hp
      cases hbn : byNumberOf input.workOrders id with
      | none => rw [hbn] at hp; exact hst p hp
      | some wo =>
        rw [hbn] at hp
        simp only at hp
        rcases List.mem_append.mp hp with hold | hnew
        · exact hst p hold
        · have hpe : p = (id,
              (candidateStartOf (byNumberOf input.workOrders)
                 (wcByNameOf input.workCenters) st wo,
               endOf (byNumberOf input.workOrders)
                 (wcByNameOf input.workCenters) st wo)) := by
            simpa using hnew
          have hm : wo.isMaintenance = false := by
            have := hall id (List.mem_cons_self _ _)
            rw [hbn] at this
            simpa using this
          refine ⟨wo, ?_, hm, ?_⟩
          · rw [hpe]
            exact hbn
          · rw [hpe]
            unfold endOf
            rfl
  intro p hp
  unfold placeAll at hp
  refine key _ ?_ ⟨[], [], [], []⟩ (by intro q hq; simp at hq) p hp
  intro id hid
  exact (List.mem_filter.mp hid).2

theorem assocGet_mem {α : Type} :
    ∀ (l : List (String × α)) (k : String) (v : α),
      assocGet l k = some v → (k, v) ∈ l := by
  intro l
  induction l with
  | nil => intro k v h; simp [assocGet] at h
  | cons p t ih =>
    intro k v h
    rw [assocGet_cons] at h
    cases hg : assocGet t k with
    | some x =>
      rw [hg] at h
      have hxv : x = v := Option.some.inj h
      subst hxv
      exact List.mem_cons_of_mem _ (ih k x hg)
    | none =>
      rw [hg] at h
      have hif : (if p.1 == k then some p.2 else none) = some v := h
      by_cases hk : (p.1 == k) = true
      · rw [if_pos hk] at hif
        have hpv : p.2 = v := Option.some.inj hif
        have hpk : p.1 = k := by simpa using hk
        have hpkv : p = (k, v) := by
          obtain ⟨a, b⟩ := p
          simp only at hpv hpk
          rw [hpv, hpk]
        rw [← hpkv]
        exact List.mem_cons_self _ _
      · rw [if_neg hk] at hif
        exact absurd hif (by simp)

/-- Conservation through `calculateEndDateWithShiftsAndMaintenance`: when
the walk completes, the returned end is exactly `durationMinutes` in-shift
non-maintenance minutes after the start. -/
theorem calc_conserves (startDate durationMinutes : Nat)
    (shifts : List Shift) (ranges : List MaintenanceRange)
    (hsne : shifts.isEmpty = false)
    (hwf : ∀ s ∈ shifts, s.startHour < 24 ∧ s.endHour ≤ 24)
    (hchk : walkCompletes startDate durationMinutes shifts ranges = true) :
    startDate ≤ calculateEndDateWithShiftsAndMaintenance startDate
        durationMinutes shifts ranges ∧
    specWorkingMinutes startDate
      (calculateEndDateWithShiftsAndMaintenance startDate durationMinutes
        shifts ranges) shifts ranges = durationMinutes := by
  unfold calculateEndDateWithShiftsAndMaintenance
  rw [hsne]
  simp only [Bool.false_eq_true, if_false]
  unfold walkCompletes at hchk
  rcases calcGo_conserves shifts ranges hwf 5000 _ _ hchk with ⟨h1, h2⟩
  have hg : startDate ≤ getNextWorkingMoment startDate shifts ranges :=
    gnwmGo_ge shifts ranges 1000 startDate
  refine ⟨by omega, ?_⟩
  rw [specWM_add startDate (getNextWorkingMoment startDate shifts ranges) _
    shifts ranges hg h1]
  rw [h2]
  have h0 : specWorkingMinutes startDate
      (getNextWorkingMoment startDate shifts ranges) shifts ranges = 0 :=
    specWM_none _ _ _ _ (fun u hu1 hu2 =>
      gnwmGo_skips shifts ranges (fun s hs => (hwf s hs).1) 1000 _ u hu1 hu2)
  rw [h0]
  omega

/-- C5 (amended): duration conservation for a rescheduled order.  For
every successful `reflow` whose order ids are unique, every
non-maintenance order placed by the pass at `(se.1, se.2)` appears in the
output with exactly those instants, and — provided its center's shift list
is nonempty with well-formed hours and the bounded time-walk completes
(`walkCompletes`) — the number of minutes in `[se.1, se.2)` inside a shift
and outside every maintenance window equals the order's
`durationMinutes` exactly.  (As stated in the spec the claim is false:
when an iteration bound silently expires the walk counts non-working
minutes, see the counterexample.) -/
theorem C5_duration_conservation_amended (input : ReflowInput)
    (r : ReflowResult) (wo : WorkOrder) (se : Nat × Nat)
    (h : reflow input = Except.ok r)
    (hnd : (input.workOrders.map (fun o => o.workOrderNumber)).Nodup)
    (hwmem : wo ∈ input.workOrders)
    (hm : wo.isMaintenance = false)
    (hplaced : assocGet
        (placeAll input (kahnResult input.workOrders)).newSchedule
        wo.workOrderNumber = some se)
    (hsne : (shiftsOfFn (wcByNameOf input.workCenters) wo).isEmpty = false)
    (hwf : ∀ s ∈ shiftsOfFn (wcByNameOf input.workCenters) wo,
      s.startHour < 24 ∧ s.endHour ≤ 24)
    (hchk : walkCompletes se.1 wo.durationMinutes
        (shiftsOfFn (wcByNameOf input.workCenters) wo)
        (rangesOfFn (wcByNameOf input.workCenters) wo) = true) :
    { wo with startDate := se.1, endDate := se.2 } ∈ r.updatedWorkOrders ∧
    specWorkingMinutes se.1 se.2
      (shiftsOfFn (wcByNameOf input.workCenters) wo)
      (rangesOfFn (wcByNameOf input.workCenters) wo) =
      wo.durationMinutes := by
  rcases reflow_ok_structure h with ⟨ids, htop, hupd, -, -⟩
  have hids : ids = kahnResult input.workOrders := by
    unfold topologicalOrder at htop
    by_cases hc : (kahnResult input.workOrders).length ≠
        input.workOrders.length
    · rw [if_pos hc] at htop
      exact absurd htop (by simp)
    · rw [if_neg hc] at htop
      exact (Except.ok.inj htop).symm
  subst hids
  constructor
  · rw [hupd]
    unfold updatedOrdersOf
    refine List.mem_map.mpr ⟨wo, hwmem, ?_⟩
    simp only [hm, Bool.false_eq_true, if_false, hplaced]
  · have hpmem := assocGet_mem _ _ _ hplaced
    rcases placeAll_newSchedule_spec input (kahnResult input.workOrders) _
      hpmem with ⟨wo', hbn', hm', hcalc⟩
    have hself : byNumberOf input.workOrders wo.workOrderNumber = some wo :=
      assocGet_self_of_nodup hnd hwmem
    have hww : wo' = wo := Option.some.inj (hbn'.symm.trans hself)
    subst hww
    simp only at hcalc
    rw [hcalc]
    exact (calc_conserves se.1 wo'.durationMinutes _ _ hsne hwf hchk).2

theorem isInMaintenanceRange_chainR (t a n : Nat) :
    isInMaintenanceRange t (chainR a n) = true ↔ a ≤ t ∧ t < a + n := by
  unfold isInMaintenanceRange chainR
  rw [List.any_eq_true]
  constructor
  · rintro ⟨r, hr, hcond⟩
    rcases List.mem_map.mp hr with ⟨k, hk, rfl⟩
    have hkn := List.mem_range.mp hk
    simp only [Bool.and_eq_true, decide_eq_true_eq] at hcond
    omega
  · rintro ⟨h1, h2⟩
    refine ⟨⟨t, t + 1⟩, List.mem_map.mpr ⟨t - a, List.mem_range.mpr
      (by omega), ?_⟩, by simp⟩
    have : a + (t - a) = t := by omega
    rw [this]

theorem find?_chainR (a : Nat) :
    ∀ (n t : Nat), a ≤ t → t < a + n →
      (chainR a n).find?
          (fun r => decide (r.start ≤ t) && decide (t < r.«end»)) =
        some ⟨t, t + 1⟩ := by
  intro n
  induction n with
  | zero => intro t h1 h2; omega
  | succ m ih =>
    intro t h1 h2
    rw [chainR, List.range_succ, List.map_append, List.find?_append]
    rcases Nat.lt_or_ge t (a + m) with h | h
    · rw [show (List.range m).map
          (fun k => MaintenanceRange.mk (a + k) (a + k + 1)) =
          chainR a m from rfl]
      rw [ih t h1 h]
      rfl
    · have htm : t = a + m := by omega
      have hnone : (chainR a m).find?
          (fun r => decide (r.start ≤ t) && decide (t < r.«end»)) =
            none := by
        rw [List.find?_eq_none]
        intro r hr
        rcases List.mem_map.mp hr with ⟨k, hk, rfl⟩
        have := List.mem_range.mp hk
        simp only [Bool.and_eq_true, decide_eq_true_eq, not_and]
        omega
      rw [show (List.range m).map
          (fun k => MaintenanceRange.mk (a + k) (a + k + 1)) =
          chainR a m from rfl]
      rw [hnone]
      simp only [List.map_cons, List.map_nil, List.find?_cons,
        Option.none_or]
      rw [show (decide (a + m ≤ t) && decide (t < a + m + 1)) = true from by
        simp; omega]
      rw [htm]

/-- One unfolding step of the next-working-moment loop. -/
theorem gnwmGo_succ (sh : List Shift) (r : List MaintenanceRange)
    (f cur : Nat) :
    getNextWorkingMomentGo sh r (f + 1) cur =
      if sh.length > 0 && !isWithinShift cur sh then
        getNextWorkingMomentGo sh r f (getNextShiftStart cur sh)
      else if r.length > 0 && isInMaintenanceRange cur r then
        match getMaintenanceRangeEnd cur r with
        | some e => getNextWorkingMomentGo sh r f e
        | none => cur
      else cur := rfl

/-- One unfolding step of the end-date walk. -/
theorem calcGo_succ (sh : List Shift) (r : List MaintenanceRange)
    (f cur rem : Nat) :
    calcGo sh r (f + 1) cur rem =
      if rem == 0 then cur
      else if getWorkingSegmentEnd cur sh r - cur == 0 then
        calcGo sh r f
          (getNextWorkingMoment (getWorkingSegmentEnd cur sh r) sh r) rem
      else if rem ≤ getWorkingSegmentEnd cur sh r - cur then cur + rem
      else calcGo sh r f
        (getNextWorkingMoment (getWorkingSegmentEnd cur sh r) sh r)
        (rem - (getWorkingSegmentEnd cur sh r - cur)) := rfl

/-- Over the 1002-window chain with the all-day Monday shift, every
iteration of the bounded next-working-moment loop advances exactly one
minute (each minute is a fresh maintenance range), so the loop crawls
`fuel` minutes and stops. -/
theorem gnwmGo_chainR :
    ∀ (f j : Nat), j + f ≤ 1002 →
      getNextWorkingMomentGo [⟨1, 0, 23⟩] (chainR 1441 1002) f (1441 + j) =
        1441 + j + f := by
  intro f
  induction f with
  | zero => intro j h; rfl
  | succ f ih =>
    intro j h
    rw [gnwmGo_succ]
    have hin : isWithinShift (1441 + j) [⟨1, 0, 23⟩] = true := by
      refine (isWithinShift_iff _ _).mpr
        ⟨⟨1, 0, 23⟩, List.mem_cons_self _ _, ?_, ?_, ?_⟩
      · show (1 : Nat) = dayOfWeek (1441 + j)
        unfold dayOfWeek
        omega
      · show (0 : Nat) ≤ hourOf (1441 + j)
        omega
      · show hourOf (1441 + j) < 23
        unfold hourOf
        omega
    rw [if_neg (by simp [hin])]
    have hm : isInMaintenanceRange (1441 + j) (chainR 1441 1002) = true :=
      (isInMaintenanceRange_chainR _ _ _).mpr ⟨by omega, by omega⟩
    rw [if_pos (by
      rw [hm]
      simp [chainR])]
    have hend : getMaintenanceRangeEnd (1441 + j) (chainR 1441 1002) =
        some (1441 + j + 1) := by
      unfold getMaintenanceRangeEnd
      rw [find?_chainR 1441 1002 (1441 + j) (by omega) (by omega)]
      rfl
    rw [hend]
    simp only []
    rw [show 1441 + j + 1 = 1441 + (j + 1) from by omega]
    rw [ih (j + 1) (by omega)]
    omega

theorem chainR_length (a n : Nat) : (chainR a n).length = n := by
  unfold chainR
  rw [List.length_map, List.length_range]

theorem chainR_cons (a n : Nat) :
    chainR a (n + 1) = ⟨a, a + 1⟩ :: chainR (a + 1) n := by
  unfold chainR
  rw [List.range_succ_eq_map, List.map_cons, List.map_map]
  refine congrArg (List.cons _) ?_
  apply List.map_congr_left
  intro k hk
  show MaintenanceRange.mk (a + (k + 1)) (a + (k + 1) + 1) =
    ⟨a + 1 + k, a + 1 + k + 1⟩
  simp only [MaintenanceRange.mk.injEq]
  omega

/-- Closed form of the maintenance clamp fold over a one-minute chain: the
first chain start beyond `t` wins when it lies inside the chain and below
the accumulator. -/
theorem clampFold_chainR (t : Nat) :
    ∀ (n a acc : Nat),
      (chainR a n).foldl (fun segmentEnd r =>
        if decide (t < r.start) && decide (r.start < segmentEnd) then r.start
        else segmentEnd) acc =
      if max a (t + 1) < a + n ∧ max a (t + 1) < acc then max a (t + 1)
      else acc := by
  intro n
  induction n with
  | zero =>
    intro a acc
    rw [show chainR a 0 = [] from rfl, List.foldl_nil]
    rw [if_neg (by omega)]
  | succ m ih =>
    intro a acc
    rw [chainR_cons, List.foldl_cons]
    by_cases hc : (decide (t < a) && decide (a < acc)) = true
    · rw [if_pos hc]
      simp only [Bool.and_eq_true, decide_eq_true_eq] at hc
      rw [ih (a + 1) a]
      rw [if_neg (by omega)]
      rw [if_pos (by omega)]
      omega
    · rw [if_neg hc]
      rw [ih (a + 1) acc]
      simp only [Bool.and_eq_true, decide_eq_true_eq, not_and] at hc
      by_cases hmax : max (a + 1) (t + 1) < a + 1 + m ∧
          max (a + 1) (t + 1) < acc
      · rw [if_pos hmax]
        by_cases hmax2 : max a (t + 1) < a + (m + 1) ∧ max a (t + 1) < acc
        · rw [if_pos hmax2]
          omega
        · rw [if_neg hmax2]
          omega
      · rw [if_neg hmax]
        by_cases hmax2 : max a (t + 1) < a + (m + 1) ∧ max a (t + 1) < acc
        · rw [if_pos hmax2]
          omega
        · rw [if_neg hmax2]

theorem C5cx_seg0 :
    getWorkingSegmentEnd 1440 [⟨1, 0, 23⟩] (chainR 1441 1002) = 1441 := by
  unfold getWorkingSegmentEnd
  rw [show getShiftSegmentEnd 1440 [⟨1, 0, 23⟩] = 2820 from by decide]
  rw [clampFold_chainR 1440 1002 1441 2820]
  rw [if_pos (by omega)]
  omega

theorem C5cx_seg1 :
    getWorkingSegmentEnd 2441 [⟨1, 0, 23⟩] (chainR 1441 1002) = 2442 := by
  unfold getWorkingSegmentEnd
  rw [show getShiftSegmentEnd 2441 [⟨1, 0, 23⟩] = 2820 from by decide]
  rw [clampFold_chainR 2441 1002 1441 2820]
  rw [if_pos (by omega)]
  omega

theorem C5cx_hg1441 :
    getNextWorkingMoment 1441 [⟨1, 0, 23⟩] (chainR 1441 1002) = 2441 := by
  show getNextWorkingMomentGo [⟨1, 0, 23⟩] (chainR 1441 1002) 1000
    (1441 + 0) = 2441
  rw [gnwmGo_chainR 1000 0 (by omega)]

theorem C5cx_hg0 :
    getNextWorkingMoment 1440 [⟨1, 0, 23⟩] (chainR 1441 1002) = 1440 := by
  show getNextWorkingMomentGo [⟨1, 0, 23⟩] (chainR 1441 1002)
    (999 + 1) 1440 = 1440
  rw [gnwmGo_succ]
  rw [if_neg (by decide)]
  rw [if_neg (by
    intro hcon
    rw [Bool.and_eq_true] at hcon
    rcases (isInMaintenanceRange_chainR 1440 1441 1002).mp hcon.2 with
      ⟨h1, -⟩
    omega)]

/-- The walk over the chain: one working minute `[1440, 1441)`, then a
1000-iteration crawl that runs out of fuel at minute 2441 — still inside a
maintenance range — where the final minute of duration is counted. -/
theorem C5cx_calc :
    calculateEndDateWithShiftsAndMaintenance 1440 2 [⟨1, 0, 23⟩]
      (chainR 1441 1002) = 2442 := by
  unfold calculateEndDateWithShiftsAndMaintenance
  rw [if_neg (by decide)]
  rw [C5cx_hg0]
  show calcGo [⟨1, 0, 23⟩] (chainR 1441 1002) (4999 + 1) 1440 2 = 2442
  rw [calcGo_succ]
  rw [if_neg (by decide)]
  rw [C5cx_seg0]
  rw [C5cx_hg1441]
  rw [if_neg (by decide)]
  rw [if_neg (by decide)]
  show calcGo [⟨1, 0, 23⟩] (chainR 1441 1002) (4998 + 1) 2441
    (2 - (1441 - 1440)) = 2442
  rw [calcGo_succ]
  rw [if_neg (by decide)]
  rw [C5cx_seg1]
  rw [if_neg (by decide)]
  rw [if_pos (by decide)]

theorem isInMaintenanceW_C5cxw (t : Nat) :
    isInMaintenanceW t C5cxw = true ↔ 1441 ≤ t ∧ t < 2443 := by
  unfold isInMaintenanceW C5cxw
  rw [List.any_eq_true]
  constructor
  · rintro ⟨w, hw, hcond⟩
    rcases List.mem_map.mp hw with ⟨k, hk, rfl⟩
    have := List.mem_range.mp hk
    simp only [Bool.and_eq_true, decide_eq_true_eq] at hcond
    omega
  · rintro ⟨h1, h2⟩
    refine ⟨⟨t, t + 1⟩, List.mem_map.mpr ⟨t - 1441, List.mem_range.mpr
      (by omega), ?_⟩, by simp⟩
    simp only [MaintenanceWindow.mk.injEq]
    omega

theorem C5cxw_ranges :
    C5cxw.map (fun w => MaintenanceRange.mk w.startDate w.endDate) =
      chainR 1441 1002 := by
  unfold C5cxw chainR
  rw [List.map_map]
  apply List.map_congr_left
  intro k hk
  show MaintenanceRange.mk (1441 + k) (1442 + k) = ⟨1441 + k, 1441 + k + 1⟩
  simp only [MaintenanceRange.mk.injEq]
  exact ⟨trivial, by omega⟩

/-- One unfolding step of the placer's maintenance-advance loop. -/
theorem gnasMaintLoop_succ (sh : List Shift) (w : List MaintenanceWindow)
    (f cur : Nat) :
    gnasMaintLoop sh w (f + 1) cur =
      if isInMaintenanceW cur w then
        match w.find? (fun x => decide (x.startDate ≤ cur) &&
            decide (cur < x.endDate)) with
        | some x => gnasMaintLoop sh w f
            (if sh.length > 0 && !isWithinShift x.endDate sh then
              getNextShiftStart x.endDate sh
            else x.endDate)
        | none => gnasMaintLoop sh w f cur
      else cur := rfl

set_option maxRecDepth 40000 in
theorem C5cx_cs :
    candidateStartOf (byNumberOf C5cx.workOrders)
      (wcByNameOf C5cx.workCenters) ⟨[], [], [], []⟩ C5cxorder = 1440 := by
  show gnasMaintLoop [⟨1, 0, 23⟩] C5cxw (499 + 1) 1440 = 1440
  rw [gnasMaintLoop_succ]
  rw [if_neg (by
    intro hcon
    rcases (isInMaintenanceW_C5cxw 1440).mp hcon with ⟨h1, -⟩
    omega)]

set_option maxRecDepth 40000 in
theorem C5cx_end :
    endOf (byNumberOf C5cx.workOrders) (wcByNameOf C5cx.workCenters)
      ⟨[], [], [], []⟩ C5cxorder = 2442 := by
  unfold endOf
  rw [C5cx_cs]
  rw [show rangesOfFn (wcByNameOf C5cx.workCenters) C5cxorder =
      C5cxw.map (fun w => MaintenanceRange.mk w.startDate w.endDate)
      from rfl]
  rw [C5cxw_ranges]
  rw [show shiftsOfFn (wcByNameOf C5cx.workCenters) C5cxorder =
      [⟨1, 0, 23⟩] from rfl]
  rw [show C5cxorder.durationMinutes = 2 from rfl]
  exact C5cx_calc

set_option maxRecDepth 40000 in
theorem C5cx_place : placeAll C5cx ["W"] = C5cxstate := by
  show ["W"].foldl (placeOne (byNumberOf C5cx.workOrders)
    (wcByNameOf C5cx.workCenters)) ⟨[], [], [], []⟩ = C5cxstate
  rw [List.foldl_cons, List.foldl_nil]
  unfold placeOne
  rw [show byNumberOf C5cx.workOrders "W" = some C5cxorder from rfl]
  simp only [C5cx_cs, C5cx_end]
  rfl

theorem C5cx_upd :
    updatedOrdersOf C5cx.workOrders C5cxstate.newSchedule = [C5cxout] := rfl

set_option maxRecDepth 40000 in
theorem C5cx_valid :
    validateSchedule [C5cxout] C5cx.workCenters = ⟨true, []⟩ := by
  have hr : C5cxwc.maintenanceWindows.map
      (fun w => MaintenanceRange.mk w.startDate w.endDate) =
      chainR 1441 1002 := C5cxw_ranges
  have hlen : (C5cxwc.maintenanceWindows.map
      (fun w => MaintenanceRange.mk w.startDate w.endDate)).length =
      1002 := by
    rw [hr, chainR_length]
  have hce : (if (1002 : Nat) > 0 then
      calculateEndDateWithShiftsAndMaintenance C5cxout.startDate
        C5cxout.durationMinutes C5cxwc.shifts
        (C5cxwc.maintenanceWindows.map
          (fun w => MaintenanceRange.mk w.startDate w.endDate))
    else calculateEndDateWithShifts C5cxout.startDate
      C5cxout.durationMinutes C5cxwc.shifts) = 2442 := by
    rw [if_pos (by omega)]
    rw [hr]
    rw [show C5cxwc.shifts = [⟨1, 0, 23⟩] from rfl,
      show C5cxout.startDate = 1440 from rfl,
      show C5cxout.durationMinutes = 2 from rfl]
    exact C5cx_calc
  have hsh : checkShifts [C5cxout] C5cx.workCenters = [] := by
    unfold checkShifts
    simp only [List.flatMap_cons, List.flatMap_nil, List.append_nil]
    rw [show List.find? (fun c => c.name == C5cxout.workCenterId)
      C5cx.workCenters = some C5cxwc from rfl]
    simp only []
    rw [if_neg (by decide)]
    rw [if_neg (by decide)]
    rw [hlen]
    rw [hce]
    rw [if_neg (by decide)]
    rfl
  unfold validateSchedule
  rw [hsh]
  rw [show checkWorkCenterConflicts [C5cxout] = [] from by decide]
  rw [show checkDependencies [C5cxout] = [] from by decide]
  rfl

set_option maxRecDepth 40000 in
theorem C5cx_reflow : reflow C5cx = Except.ok C5cxresult := by
  unfold reflow
  rw [show topologicalOrder C5cx.workOrders = Except.ok ["W"] from rfl]
  simp only [C5cx_place, C5cx_upd, C5cx_valid]
  rfl

theorem C5cx_specWM :
    specWorkingMinutes 1440 2442 [⟨1, 0, 23⟩] (chainR 1441 1002) = 1 := by
  unfold specWorkingMinutes
  rw [show (2442 - 1440 : Nat) = 1001 + 1 from rfl]
  have hcong : (List.range (1001 + 1)).filter (fun k =>
      isWithinShift (1440 + k) [⟨1, 0, 23⟩] &&
        !isInMaintenanceRange (1440 + k) (chainR 1441 1002)) =
      (List.range (1001 + 1)).filter (fun k => k == 0) := by
    apply List.filter_congr
    intro k hk
    have hkr := List.mem_range.mp hk
    by_cases h0 : k = 0
    · subst h0
      rw [show isInMaintenanceRange (1440 + 0) (chainR 1441 1002) = false
          from by
        cases hx : isInMaintenanceRange (1440 + 0) (chainR 1441 1002) with
        | false => rfl
        | true =>
          rcases (isInMaintenanceRange_chainR (1440 + 0) 1441 1002).mp hx
            with ⟨h1, -⟩
          omega]
      rfl
    · have hin : isInMaintenanceRange (1440 + k) (chainR 1441 1002) =
          true :=
        (isInMaintenanceRange_chainR _ _ _).mpr ⟨by omega, by omega⟩
      rw [hin]
      simp [h0]
  rw [hcong]
  rw [List.range_succ_eq_map]
  simp only [List.filter_cons]
  rw [if_pos (by decide)]
  have htail : ((List.range 1001).map Nat.succ).filter
      (fun k => k == 0) = [] := by
    rw [List.filter_eq_nil_iff]
    intro a ha
    rcases List.mem_map.mp ha with ⟨b, hb, rfl⟩
    simp
  rw [htail]
  rfl

set_option maxRecDepth 40000 in
/-- C5 counterexample: for the order `W` (duration 2) on a center with
a Monday-long shift and 1002 one-minute maintenance windows, `reflow`
succeeds and reschedules `W` to `[1440, 2442)`, but only one minute of
that interval is in-shift and outside maintenance: the inner
`getNextWorkingMoment` call exhausts its 1000-iteration bound mid-chain
and the walk then counts an in-maintenance minute, so the conserved total
is 1 ≠ durationMinutes = 2. -/
theorem C5_counterexample :
    reflow C5cx = Except.ok C5cxresult ∧
    C5cxout ∈ C5cxresult.updatedWorkOrders ∧
    C5cxout.isMaintenance = false ∧
    shiftsOfFn (wcByNameOf C5cx.workCenters) C5cxout ≠ [] ∧
    specWorkingMinutes C5cxout.startDate C5cxout.endDate
      (shiftsOfFn (wcByNameOf C5cx.workCenters) C5cxout)
      (rangesOfFn (wcByNameOf C5cx.workCenters) C5cxout) = 1 ∧
    C5cxout.durationMinutes = 2 := by
  refine ⟨C5cx_reflow, List.mem_cons_self _ _, rfl, by decide, ?_, rfl⟩
  rw [show shiftsOfFn (wcByNameOf C5cx.workCenters) C5cxout =
    [⟨1, 0, 23⟩] from rfl]
  rw [show rangesOfFn (wcByNameOf C5cx.workCenters) C5cxout =
    C5cxw.map (fun w => MaintenanceRange.mk w.startDate w.endDate)
    from rfl]
  rw [C5cxw_ranges]
  exact C5cx_specWM

theorem C5_witness :
    reflow C5winput = Except.ok C5wresult ∧
    ({ C5worder with startDate := 1440, endDate := 1500 } ∈
      C5wresult.updatedWorkOrders ∧
    specWorkingMinutes 1440 1500
      (shiftsOfFn (wcByNameOf C5winput.workCenters) C5worder)
      (rangesOfFn (wcByNameOf C5winput.workCenters) C5worder) =
      C5worder.durationMinutes) := by
  have h : reflow C5winput = Except.ok C5wresult := by rfl
  exact ⟨h, C5_duration_conservation_amended C5winput C5wresult C5worder
    (1440, 1500) h (by decide) (List.mem_cons_self _ _) rfl (by rfl)
    (by rfl) (by decide) (by decide)⟩
